import Mathlib

/-!
The boundary splitter, the worker parse and the merge of `1brc_corlin_palmer.go`:
a shallow embedding of `src/1brc_corlin_palmer.go`.

* A Go `[]byte` is a `List Nat` holding its bytes (each below 256), taken by
  value at the moment the slice is returned or sent on a channel. The sharing
  of backing arrays between slices is modelled apart, by `processChunkMem` on
  slice headers and a heap of arrays; `supervisorMem` and `unitsReadLate` give
  what a sent slice shows once later chunks have been handled.
* `int64` is `Int`; every arithmetic result is passed through `wrapInt64`
  (two's complement, 64 bits).
* `map[CityName]CityTemp` is an association list with at most one pair per key;
  a missing key reads as `none` (the `nil` pointer of the source), and the
  in-place update through the pointer `ct` replaces the pair of that key.
* The goroutines are modelled by what each one computes: `lineSupervisor`
  turns the list of raw chunks into the list of units it sends, `worker` turns
  the list of units one worker receives into its table, `mergeResults` is the
  merge loop of `main` over the tables received on `results`.
-/

namespace OneBRC

/-! ## Machine integers and bytes -/

/-- Two's-complement reduction of an integer to the range of `int64`. -/
def wrapInt64 (x : Int) : Int :=
  (x + 9223372036854775808) % 18446744073709551616 - 9223372036854775808

/-- The byte subtraction `b - '0'` of line 183: `uint8` arithmetic, modulo 256. -/
def byteSubZero (b : Nat) : Nat := (b + 256 - 48) % 256

/-- Line break, `'\n'`. -/
def NL : Nat := 10
/-- Delimiter, `';'`. -/
def SEMI : Nat := 59
/-- Decimal point, `'.'`. -/
def DOT : Nat := 46
/-- Minus sign, `'-'`. -/
def MINUS : Nat := 45

/-- The bytes of an ASCII string literal. -/
def ascii (s : String) : List Nat := s.toList.map Char.toNat

/-! ## processChunk and lineSupervisor (lines 76-123) -/

/-- `bytes.Index(s, []byte{b})`: index of the first `b` in `s`, or `-1`. -/
def bytesIndex (s : List Nat) (b : Nat) : Int :=
  match s with
  | [] => -1
  | x :: xs =>
    if x = b then 0
    else
      let r := bytesIndex xs b
      if r = -1 then -1 else r + 1

/-- `bytes.LastIndex(s, []byte{b})`: index of the last `b` in `s`, or `-1`. -/
def bytesLastIndex (s : List Nat) (b : Nat) : Int :=
  match s with
  | [] => -1
  | x :: xs =>
    let r := bytesLastIndex xs b
    if r ≠ -1 then r + 1
    else if x = b then 0 else -1

/-- The slice expression `s[lo:hi]`. -/
def slice (s : List Nat) (lo hi : Int) : List Nat :=
  (s.take hi.toNat).drop lo.toNat

/-- The slice expression `s[lo:]`. -/
def sliceFrom (s : List Nat) (lo : Int) : List Nat :=
  s.drop lo.toNat

/-- `processChunk` (lines 76-103): returns `(validPart, newLeftover)`. -/
def processChunk (chunk leftover : List Nat) : List Nat × List Nat :=
  let firstNewline := bytesIndex chunk NL
  let lastNewline := bytesLastIndex chunk NL
  -- lines 81-88
  let validPart₁ : List Nat :=
    if firstNewline ≠ -1 then leftover ++ slice chunk 0 (firstNewline + 1) else []
  let leftover₁ : List Nat :=
    if firstNewline ≠ -1 then [] else leftover ++ chunk
  -- lines 90-100
  if lastNewline ≠ -1 ∧ firstNewline ≠ lastNewline then
    (validPart₁ ++ slice chunk (firstNewline + 1) (lastNewline + 1),
     sliceFrom chunk (lastNewline + 1))
  else
    (validPart₁, leftover₁)

/-- State of the loop of `lineSupervisor`: the units sent so far on
`validChunks` (oldest first) and the dangling-end buffer. -/
structure SupState where
  sent : List (List Nat)
  buffer : List Nat
deriving DecidableEq, Repr

/-- One iteration of the loop of `lineSupervisor` (lines 109-115). -/
def supStep (st : SupState) (chunk : List Nat) : SupState :=
  let r := processChunk chunk st.buffer
  { sent := if r.1.length > 0 then st.sent ++ [r.1] else st.sent,
    buffer := r.2 }

/-- `lineSupervisor` (lines 106-123): the units sent on `validChunks`, in
order, for the raw chunks received on `rawChunks`, in order, each with the
bytes it holds at the moment it is sent. What a sent slice shows later, once
further chunks have been handled, is followed by `supervisorMem`. -/
def lineSupervisor (rawChunks : List (List Nat)) : List (List Nat) :=
  let st := rawChunks.foldl supStep { sent := [], buffer := [] }
  if st.buffer.length > 0 then st.sent ++ [st.buffer] else st.sent

/-! ## CityName, CityTemp and the tables (lines 125-131) -/

/-- `CityName`, a `[64]byte`: a list of 64 bytes. -/
abbrev CityName := List Nat

/-- The zero value `CityName{}`. -/
def CityName.zero : CityName := List.replicate 64 0

/-- The array behind a `CityTemp`: `[0]` sum, `[1]` count, `[2]` min, `[3]` max. -/
structure Temps where
  sum : Int
  count : Int
  min : Int
  max : Int
deriving DecidableEq, Repr

/-- `map[CityName]CityTemp`. -/
abbrev Table := List (CityName × Temps)

/-- The map read `m[city]`; `none` is the `nil` pointer. -/
def Table.get (m : Table) (city : CityName) : Option Temps :=
  match m with
  | [] => none
  | (k, v) :: rest => if k = city then some v else Table.get rest city

/-- The map write `m[city] = v` (and the update through the pointer stored
under `city`). -/
def Table.put (m : Table) (city : CityName) (v : Temps) : Table :=
  match m with
  | [] => [(city, v)]
  | (k, w) :: rest =>
    if k = city then (k, v) :: rest else (k, w) :: Table.put rest city v

/-! ## worker (lines 134-190) -/

/-- The variables of `worker`. -/
structure WorkerState where
  cityTemps : Table
  city : CityName
  cityLen : Nat
  temp : Int
  isNegative : Bool
deriving DecidableEq, Repr

/-- The state of `worker` before its first unit (lines 135-139). -/
def WorkerState.init : WorkerState :=
  { cityTemps := [], city := CityName.zero, cityLen := 0, temp := 0, isNegative := false }

/-- The `case '\n'` of `worker` (lines 147-172). -/
def commitLine (s : WorkerState) : WorkerState :=
  let temp := if s.isNegative then wrapInt64 (-s.temp) else s.temp
  let cityTemps :=
    match s.cityTemps.get s.city with
    | none =>
      let minMaxTemp := if s.isNegative then wrapInt64 (-temp) else temp
      s.cityTemps.put s.city { sum := temp, count := 1, min := minMaxTemp, max := minMaxTemp }
    | some ct =>
      s.cityTemps.put s.city
        { sum := wrapInt64 (ct.sum + temp),
          count := wrapInt64 (ct.count + 1),
          min := if temp < ct.min then temp else ct.min,
          max := if temp > ct.max then temp else ct.max }
  { cityTemps := cityTemps, city := CityName.zero, cityLen := 0, temp := 0, isNegative := false }

/-- The body of the byte loop of `worker`: the `switch b` of lines 143-185. -/
def workerStep (s : WorkerState) (b : Nat) : WorkerState :=
  if b = SEMI then { s with cityLen := 64, isNegative := false }
  else if b = NL then commitLine s
  else if b = DOT then s
  else if b = MINUS then { s with isNegative := true }
  else if s.cityLen < 44 then
    { s with city := s.city.set s.cityLen b, cityLen := s.cityLen + 1 }
  else
    { s with temp := wrapInt64 (s.temp * 10 + (byteSubZero b : Int)) }

/-- The state of one `worker` after the units it received, in order
(the two nested loops of lines 141-187). -/
def workerRun (units : List (List Nat)) : WorkerState :=
  units.foldl (fun s chunk => chunk.foldl workerStep s) WorkerState.init

/-- `worker`: the table sent on `results` (line 189). -/
def worker (units : List (List Nat)) : Table :=
  (workerRun units).cityTemps

/-! ## The merge loop of main (lines 234-251) -/

/-- The zero value of `new([4]int64)` (line 239). -/
def Temps.zero : Temps := { sum := 0, count := 0, min := 0, max := 0 }

/-- Lines 241-248: the array `finalCt` after folding the array `ct` into it. -/
def mergeTemps (finalCt ct : Temps) : Temps :=
  { sum := wrapInt64 (finalCt.sum + ct.sum),
    count := wrapInt64 (finalCt.count + ct.count),
    min := if ct.min < finalCt.min then ct.min else finalCt.min,
    max := if ct.max > finalCt.max then ct.max else finalCt.max }

/-- The body of the inner loop of the merge (lines 237-249) for one pair
`city, ct` of a worker's table. -/
def mergeEntry (finalResults : Table) (e : CityName × Temps) : Table :=
  let finalCt : Temps :=
    match finalResults.get e.1 with
    | none => Temps.zero
    | some t => t
  finalResults.put e.1 (mergeTemps finalCt e.2)

/-- The merge loop of `main` (lines 234-251) over the tables received on
`results`: the final table. -/
def mergeResults (results : List Table) : Table :=
  results.foldl (fun finalResults cityTemps => cityTemps.foldl mergeEntry finalResults) []

/-- The program with the units dealt to the workers as `assignment` says: one
list of units per worker, each in the order that worker receives them. -/
def runWorkers (assignment : List (List (List Nat))) : Table :=
  mergeResults (assignment.map worker)

/-- The number of workers started by `main` (line 206). -/
def numWorkers : Nat := 256

/-- The program on the raw chunks `rawChunks` when one of the `numWorkers`
workers receives every unit, in the order `lineSupervisor` sends them, and
reads each with the bytes it held when it was sent, and the others receive
nothing and send empty tables. -/
def run (rawChunks : List (List Nat)) : Table :=
  runWorkers (lineSupervisor rawChunks :: List.replicate (numWorkers - 1) [])

/-- The sum of the count fields (`[1]`) over the entries of a table. -/
def totalCount (m : Table) : Int :=
  (m.map (fun e => e.2.count)).sum

/-- The zero-padded key of an ASCII name of at most 64 bytes. -/
def key (s : String) : CityName :=
  ascii s ++ List.replicate (64 - (ascii s).length) 0


/-! ## Auxiliary definitions for the proofs -/

/-- The effect of `mergeEntry` on the reads of the final table: the read at
the key of `e` becomes the merged array, every other read is unchanged. -/
def mergeView (g : CityName → Option Temps) (e : CityName × Temps) :
    CityName → Option Temps :=
  fun k => if e.1 = k then some (mergeTemps ((g e.1).getD Temps.zero) e.2) else g k

/-- The arrays stored under `k` in a list of pairs, in order. -/
def entriesOf (k : CityName) (es : List (CityName × Temps)) : List Temps :=
  (es.filter (fun e => decide (e.1 = k))).map Prod.snd

/-- The bytes of `chunk` that `processChunk` puts neither in `validPart` nor
in `newLeftover`: those after the line break of a chunk that has exactly one. -/
def droppedTail (chunk : List Nat) : List Nat :=
  if bytesIndex chunk NL ≠ -1 ∧ bytesIndex chunk NL = bytesLastIndex chunk NL then
    sliceFrom chunk (bytesLastIndex chunk NL + 1)
  else []

/-! ## Auxiliary definitions for the parse -/

/-- The per-line variables after a commit (lines 168-172), with the table `T`. -/
def resetState (T : Table) : WorkerState :=
  { cityTemps := T, city := CityName.zero, cityLen := 0, temp := 0, isNegative := false }

/-- The value of `temp` at lines 151-167, after the sign has been applied at
lines 148-150: the value the `case '\n'` commits in state `s`. -/
def committedValue (s : WorkerState) : Int :=
  if s.isNegative then wrapInt64 (-s.temp) else s.temp

/-- The bytes `name` followed by zero bytes up to 64. -/
def padName (name : List Nat) : CityName :=
  name ++ List.replicate (64 - name.length) 0

/-- Line 183 repeated over the bytes `bs`, from the accumulator `t`. -/
def accumulate (t : Int) (bs : List Nat) : Int :=
  bs.foldl (fun (t : Int) (b : Nat) => wrapInt64 (t * 10 + (byteSubZero b : Int))) t

/-- The decimal number written by the digit bytes `ds`. -/
def decimalValue (ds : List Nat) : Int :=
  ds.foldl (fun (t : Int) (d : Nat) => 10 * t + ((d : Int) - 48)) 0

/-- The fold `t -> 10*t + ((b - 48) mod 256)` from 0 over the bytes `bs`, in
unbounded integers. -/
def plainFold (bs : List Nat) : Int :=
  bs.foldl (fun (t : Int) (b : Nat) => 10 * t + ((b : Int) - 48) % 256) 0

/-- The array `city` after the bytes `bs` have been stored from index `i` on
(line 179 repeated). -/
def writeName (city : CityName) (i : Nat) (bs : List Nat) : CityName :=
  match bs with
  | [] => city
  | b :: rest => writeName (city.set i b) (i + 1) rest

/-- The variables of `worker` after the bytes `line`, read from the reset
per-line state with the table `T`. -/
def parseLine (T : Table) (line : List Nat) : WorkerState :=
  line.foldl workerStep (resetState T)

/-- The bytes of the line `<name>;<value>` before its line break, the value
being an optional `-` (present when `neg`), the digit bytes `ds`, `.` and the
digit byte `f`. -/
def lineOf (name : List Nat) (neg : Bool) (ds : List Nat) (f : Nat) : List Nat :=
  name ++ SEMI :: ((if neg then [MINUS] else []) ++ ds ++ [DOT, f])

/-! ## The sorted report (lines 253-260) -/

/-- `bytes.Compare(a, b)` of the Go library, from its documentation: the
lexicographic comparison of two byte slices, `-1` when `a` is smaller, `0` when
they are equal, `+1` when `a` is larger. -/
def bytesCompare (a b : List Nat) : Int :=
  match a, b with
  | [], [] => 0
  | [], _ :: _ => -1
  | _ :: _, [] => 1
  | x :: xs, y :: ys =>
    if x < y then -1 else if y < x then 1 else bytesCompare xs ys

/-- The `less` function given to `sort.Slice` at lines 258-260. -/
def less (a b : CityName) : Bool := decide (bytesCompare a b < 0)

/-- The keys of the final table collected at lines 254-257, in the order the
pairs are met. -/
def allCities (finalResults : Table) : List CityName :=
  finalResults.map Prod.fst

/-- An insertion sort by `less`: one routine with the documented result of
`sort.Slice` (a permutation of its input in which no element is `less` than an
earlier one). -/
def insertionSortLess (l : List CityName) : List CityName :=
  l.insertionSort (fun a b => less b a = false)

/-! ## processChunk and lineSupervisor with the backing arrays of the slices -/

/-- A Go slice header whose window starts at the first byte of its backing
array (true of every slice `processChunk` builds): the identity of the array,
the length and the capacity. A slice of capacity 0 has no backing array. -/
structure Slice where
  arr : Nat
  len : Nat
  cap : Nat
deriving DecidableEq, Repr

/-- The backing arrays allocated so far, each with its contents; the identity
of an array is its position. -/
abbrev Heap := List (List Nat)

/-- The `nil` slice, and the slice of `make([]byte, 0)`. -/
def Slice.empty : Slice := { arr := 0, len := 0, cap := 0 }

/-- The bytes a slice shows in the heap `h`. -/
def Slice.bytes (h : Heap) (s : Slice) : List Nat :=
  (h.getD s.arr []).take s.len

/-- Two slices with the same backing array. -/
def sharesArray (a b : Slice) : Prop :=
  0 < a.cap ∧ 0 < b.cap ∧ a.arr = b.arr

/-- The built-in `append(s, xs...)`: when the capacity of `s` fits the new
bytes they are written into the backing array of `s` after its last byte and
the result keeps that array; otherwise a new array is allocated, of a capacity
of at least the new length chosen by the runtime (`grow`, given the old capacity
and the new length), and receives the bytes of `s` followed by `xs`. -/
def appendSlice (grow : Nat → Nat → Nat) (h : Heap) (s : Slice) (xs : List Nat) :
    Heap × Slice :=
  if s.len + xs.length ≤ s.cap then
    (h.set s.arr (writeName (h.getD s.arr []) s.len xs),
     { arr := s.arr, len := s.len + xs.length, cap := s.cap })
  else
    (h ++ [s.bytes h ++ xs ++
        List.replicate (max (s.len + xs.length) (grow s.cap (s.len + xs.length)) -
          (s.len + xs.length)) 0],
     { arr := h.length, len := s.len + xs.length,
       cap := max (s.len + xs.length) (grow s.cap (s.len + xs.length)) })

/-- The result of `processChunk` with its backing arrays: the heap after the
call, `validPart` and `newLeftover`. -/
structure ChunkResult where
  heap : Heap
  validPart : Slice
  newLeftover : Slice
deriving DecidableEq, Repr

/-- `processChunk` (lines 76-103) on slice headers: `chunk` is only read, so
it is given by its bytes. -/
def processChunkMem (grow : Nat → Nat → Nat) (h : Heap) (chunk : List Nat)
    (leftover : Slice) : ChunkResult :=
  let firstNewline := bytesIndex chunk NL
  let lastNewline := bytesLastIndex chunk NL
  -- lines 81-88
  let r₁ : ChunkResult :=
    if firstNewline ≠ -1 then
      { heap := (appendSlice grow h leftover (slice chunk 0 (firstNewline + 1))).1,
        validPart := (appendSlice grow h leftover (slice chunk 0 (firstNewline + 1))).2,
        newLeftover := { arr := leftover.arr, len := 0, cap := leftover.cap } }
    else
      { heap := (appendSlice grow h leftover chunk).1,
        validPart := Slice.empty,
        newLeftover := (appendSlice grow h leftover chunk).2 }
  -- lines 90-100
  if lastNewline ≠ -1 ∧ firstNewline ≠ lastNewline then
    { heap := (appendSlice grow
          (appendSlice grow r₁.heap r₁.validPart
            (slice chunk (firstNewline + 1) (lastNewline + 1))).1
          Slice.empty (sliceFrom chunk (lastNewline + 1))).1,
      validPart := (appendSlice grow r₁.heap r₁.validPart
          (slice chunk (firstNewline + 1) (lastNewline + 1))).2,
      newLeftover := (appendSlice grow
          (appendSlice grow r₁.heap r₁.validPart
            (slice chunk (firstNewline + 1) (lastNewline + 1))).1
          Slice.empty (sliceFrom chunk (lastNewline + 1))).2 }
  else r₁

/-- State of the loop of `lineSupervisor` with the backing arrays: the heap,
the slices sent so far on `validChunks` and the buffer. -/
structure SupMem where
  heap : Heap
  sent : List Slice
  buffer : Slice
deriving DecidableEq, Repr

/-- One iteration of the loop of `lineSupervisor` (lines 109-115) on slice
headers. -/
def supStepMem (grow : Nat → Nat → Nat) (st : SupMem) (chunk : List Nat) : SupMem :=
  { heap := (processChunkMem grow st.heap chunk st.buffer).heap,
    sent :=
      if (processChunkMem grow st.heap chunk st.buffer).validPart.len > 0 then
        st.sent ++ [(processChunkMem grow st.heap chunk st.buffer).validPart]
      else st.sent,
    buffer := (processChunkMem grow st.heap chunk st.buffer).newLeftover }

/-- The loop of `lineSupervisor` (lines 107-115) on slice headers, from the
empty heap and the buffer of `make([]byte, 0)`. -/
def supervisorMem (grow : Nat → Nat → Nat) (rawChunks : List (List Nat)) : SupMem :=
  rawChunks.foldl (supStepMem grow) { heap := [], sent := [], buffer := Slice.empty }

/-- A slice header that fits the heap `h`: its length is within its capacity
and, when it has a backing array, that array is allocated with the capacity as
its size. -/
def Slice.wf (h : Heap) (s : Slice) : Prop :=
  s.len ≤ s.cap ∧ (0 < s.cap → s.arr < h.length ∧ (h.getD s.arr []).length = s.cap)

/-- The units as the workers read them when each is read only after
`lineSupervisor` has handled the last raw chunk: the slices sent in the loop,
then the buffer flushed at lines 118-120 when it is not empty, each with the
bytes it shows in the final heap. -/
def unitsReadLate (grow : Nat → Nat → Nat) (rawChunks : List (List Nat)) :
    List (List Nat) :=
  ((supervisorMem grow rawChunks).sent ++
      (if (supervisorMem grow rawChunks).buffer.len > 0 then
        [(supervisorMem grow rawChunks).buffer] else [])).map
    (Slice.bytes (supervisorMem grow rawChunks).heap)

/-! ## Reading a table after a write -/

theorem Table.get_put (m : Table) (k : CityName) (v : Temps) (k' : CityName) :
    (m.put k v).get k' = if k = k' then some v else m.get k' := by
  induction m with
  | nil => simp [Table.put, Table.get]
  | cons p rest ih =>
    obtain ⟨a, w⟩ := p
    by_cases hak : a = k
    · subst hak
      by_cases h : a = k' <;> simp [Table.put, Table.get, h]
    · by_cases h : a = k'
      · subst h
        simp [Table.put, Table.get, hak, Ne.symm hak]
      · simp [Table.put, Table.get, hak, h, ih]

/-! ## The two index searches -/

theorem bytesIndex_range (s : List Nat) (b : Nat) :
    bytesIndex s b = -1 ∨ (0 ≤ bytesIndex s b ∧ bytesIndex s b < s.length) := by
  induction s with
  | nil => simp [bytesIndex]
  | cons x xs ih =>
    simp only [bytesIndex, List.length_cons]
    split_ifs <;> omega

theorem bytesLastIndex_range (s : List Nat) (b : Nat) :
    bytesLastIndex s b = -1 ∨ (0 ≤ bytesLastIndex s b ∧ bytesLastIndex s b < s.length) := by
  induction s with
  | nil => simp [bytesLastIndex]
  | cons x xs ih =>
    simp only [bytesLastIndex, List.length_cons]
    split_ifs <;> omega

theorem bytesIndex_le_bytesLastIndex (s : List Nat) (b : Nat) :
    bytesIndex s b ≤ bytesLastIndex s b ∧
    (bytesIndex s b = -1 → bytesLastIndex s b = -1) ∧
    (bytesLastIndex s b = -1 → bytesIndex s b = -1) := by
  induction s with
  | nil => simp [bytesIndex, bytesLastIndex]
  | cons x xs ih =>
    have h1 := bytesIndex_range xs b
    have h2 := bytesLastIndex_range xs b
    obtain ⟨ih1, ih2, ih3⟩ := ih
    simp only [bytesIndex, bytesLastIndex]
    split_ifs <;> refine ⟨by omega, fun h => ?_, fun h => ?_⟩ <;>
      first
        | omega
        | cases h

theorem take_append_slice (s : List Nat) (n m : Nat) (h : n ≤ m) :
    s.take n ++ (s.take m).drop n = s.take m := by
  have h1 : (s.take m).take n = s.take n := by
    rw [List.take_take, Nat.min_eq_left h]
  rw [← h1, List.take_append_drop]

/-! ## The merge seen key by key -/

theorem mergeEntry_get (m : Table) (e : CityName × Temps) :
    (mergeEntry m e).get = mergeView m.get e := by
  funext k
  unfold mergeEntry mergeView
  rw [Table.get_put]
  cases h : Table.get m e.1 <;> simp

theorem foldl_mergeEntry_get (es : List (CityName × Temps)) (m : Table) :
    (es.foldl mergeEntry m).get = es.foldl mergeView m.get := by
  induction es generalizing m with
  | nil => rfl
  | cons e es ih => simp only [List.foldl_cons, ih, mergeEntry_get]

theorem wrapInt64_add_comm (s a b : Int) :
    wrapInt64 (wrapInt64 (s + a) + b) = wrapInt64 (wrapInt64 (s + b) + a) := by
  unfold wrapInt64
  omega

theorem mergeTemps_comm (t a b : Temps) :
    mergeTemps (mergeTemps t a) b = mergeTemps (mergeTemps t b) a := by
  simp only [mergeTemps, Temps.mk.injEq]
  refine ⟨wrapInt64_add_comm _ _ _, wrapInt64_add_comm _ _ _, ?_, ?_⟩
  · split_ifs <;> omega
  · split_ifs <;> omega

theorem mergeView_comm (g : CityName → Option Temps) (a b : CityName × Temps) :
    mergeView (mergeView g a) b = mergeView (mergeView g b) a := by
  funext k
  by_cases hab : a.1 = b.1
  · by_cases hbk : b.1 = k
    · simp [mergeView, hab, hbk, mergeTemps_comm]
    · simp [mergeView, hab, hbk]
  · by_cases hak : a.1 = k
    · have hbk : ¬ b.1 = k := fun h => hab (hak.trans h.symm)
      simp [mergeView, hab, hak, hbk, Ne.symm hab]
    · by_cases hbk : b.1 = k
      · simp [mergeView, hab, hak, hbk, Ne.symm hab]
      · simp [mergeView, hab, hak, hbk, Ne.symm hab]

theorem mergeResults_eq_foldl_flatten (results : List Table) :
    mergeResults results = results.flatten.foldl mergeEntry [] := by
  unfold mergeResults
  rw [List.foldl_flatten]

theorem mergeResults_get_of_flatten_perm (ts ts' : List Table)
    (h : ts.flatten.Perm ts'.flatten) :
    (mergeResults ts).get = (mergeResults ts').get := by
  rw [mergeResults_eq_foldl_flatten, mergeResults_eq_foldl_flatten,
    foldl_mergeEntry_get, foldl_mergeEntry_get]
  exact List.Perm.foldl_eq' h (fun a _ b _ g => mergeView_comm g a b) _

theorem Table.get_eq_none_iff (m : Table) (k : CityName) :
    m.get k = none ↔ k ∉ m.map Prod.fst := by
  induction m with
  | nil => simp [Table.get]
  | cons p rest ih =>
    obtain ⟨a, w⟩ := p
    by_cases h : a = k
    · simp [Table.get, h]
    · simp [Table.get, h, ih, Ne.symm h]

/-! ## The final entry of a key -/

theorem entriesOf_cons_self (e : CityName × Temps) (es : List (CityName × Temps)) :
    entriesOf e.1 (e :: es) = e.2 :: entriesOf e.1 es := by
  simp [entriesOf]

theorem entriesOf_cons_of_ne (k : CityName) (e : CityName × Temps)
    (es : List (CityName × Temps)) (h : ¬ e.1 = k) :
    entriesOf k (e :: es) = entriesOf k es := by
  simp [entriesOf, h]

theorem foldl_mergeView_apply (es : List (CityName × Temps))
    (g : CityName → Option Temps) (k : CityName) :
    (es.foldl mergeView g) k =
      if entriesOf k es = [] then g k
      else some ((entriesOf k es).foldl mergeTemps ((g k).getD Temps.zero)) := by
  induction es generalizing g with
  | nil => simp [entriesOf]
  | cons e es ih =>
    rw [List.foldl_cons, ih]
    by_cases hk : e.1 = k
    · subst hk
      rw [entriesOf_cons_self]
      by_cases hes : entriesOf e.1 es = []
      · simp [hes, mergeView]
      · simp [hes, mergeView]
    · rw [entriesOf_cons_of_ne k e es hk]
      simp [mergeView, hk]

theorem foldl_mergeTemps_min_max (l : List Temps) (t : Temps) :
    (l.foldl mergeTemps t).min ≤ t.min ∧ t.max ≤ (l.foldl mergeTemps t).max := by
  induction l generalizing t with
  | nil => simp
  | cons a l ih =>
    have h := ih (mergeTemps t a)
    simp only [List.foldl_cons]
    simp only [mergeTemps] at h ⊢
    constructor
    · refine le_trans h.1 ?_
      split_ifs <;> omega
    · refine le_trans ?_ h.2
      split_ifs <;> omega

theorem mergeResults_get_fold (ts : List Table) (k : CityName) :
    (mergeResults ts).get k =
      if entriesOf k ts.flatten = [] then none
      else some ((entriesOf k ts.flatten).foldl mergeTemps Temps.zero) := by
  rw [mergeResults_eq_foldl_flatten, foldl_mergeEntry_get, foldl_mergeView_apply]
  simp [Table.get]

/-! ## The worker commits only at a line break -/

theorem workerStep_cityTemps (s : WorkerState) (b : Nat) (h : b ≠ NL) :
    (workerStep s b).cityTemps = s.cityTemps := by
  unfold workerStep
  split_ifs <;> rfl

theorem foldl_workerStep_cityTemps (chunk : List Nat) (s : WorkerState)
    (h : NL ∉ chunk) : (chunk.foldl workerStep s).cityTemps = s.cityTemps := by
  induction chunk generalizing s with
  | nil => rfl
  | cons b bs ih =>
    have hb : b ≠ NL := fun e => h (by simp [e])
    have hbs : NL ∉ bs := fun e => h (by simp [e])
    rw [List.foldl_cons, ih _ hbs, workerStep_cityTemps s b hb]

/-! ## The merge does not depend on the order of the tables -/

/-- C7: for every list of worker tables and every permutation of it, the merge
loop of `main` gives a final table with the same reads, that is the same keys
and the same sum, count, min and max under each key. -/
theorem mergeResults_perm (ts ts' : List Table) (h : ts.Perm ts') (k : CityName) :
    (mergeResults ts).get k = (mergeResults ts').get k ∧
    (k ∈ (mergeResults ts).map Prod.fst ↔ k ∈ (mergeResults ts').map Prod.fst) := by
  have hget := mergeResults_get_of_flatten_perm ts ts' h.flatten
  refine ⟨congrFun hget k, ?_⟩
  have h1 := Table.get_eq_none_iff (mergeResults ts) k
  have h2 := Table.get_eq_none_iff (mergeResults ts') k
  rw [congrFun hget k] at h1
  exact not_iff_not.mp (h1.symm.trans h2)

/-- C7 at two tables that share the key `Oslo`, merged in both orders. -/
theorem mergeResults_perm_witness :
    [[(key "Oslo", (⟨-15, 1, -15, -15⟩ : Temps))],
      [(key "Oslo", (⟨70, 2, 30, 40⟩ : Temps)), (key "Rome", (⟨210, 1, 210, 210⟩ : Temps))]].Perm
      [[(key "Oslo", (⟨70, 2, 30, 40⟩ : Temps)), (key "Rome", (⟨210, 1, 210, 210⟩ : Temps))],
        [(key "Oslo", (⟨-15, 1, -15, -15⟩ : Temps))]] ∧
    ((mergeResults [[(key "Oslo", (⟨-15, 1, -15, -15⟩ : Temps))],
      [(key "Oslo", (⟨70, 2, 30, 40⟩ : Temps)), (key "Rome", (⟨210, 1, 210, 210⟩ : Temps))]]).get
        (key "Oslo") =
     (mergeResults [[(key "Oslo", (⟨70, 2, 30, 40⟩ : Temps)), (key "Rome", (⟨210, 1, 210, 210⟩ : Temps))],
        [(key "Oslo", (⟨-15, 1, -15, -15⟩ : Temps))]]).get (key "Oslo")) :=
  ⟨List.Perm.swap _ _ [], (mergeResults_perm _ _ (List.Perm.swap _ _ []) (key "Oslo")).1⟩

/-! ## The program on concrete files -/

set_option maxRecDepth 100000

/-- C1: on the one-chunk file `Hamburg;12.0\nBerlin;-3.5\nHamburg;8.0\n` the
final table holds Hamburg with sum 200, count 2, min 0, max 120 and Berlin with
sum -35, count 1, min 0, max 35: the min of Hamburg is not its smallest value 80
and the min and max of Berlin are not its only value -35. -/
theorem run_hamburg_berlin :
    run [ascii "Hamburg;12.0\nBerlin;-3.5\nHamburg;8.0\n"] =
      [(key "Hamburg", ⟨200, 2, 0, 120⟩), (key "Berlin", ⟨-35, 1, 0, 35⟩)] := by
  decide

/-- C2: for the single raw chunk `A;1.0\nB;2.0` the only unit sent is
`A;1.0\n`; the five bytes `B;2.0` after the only line break of the chunk are in
no unit, so the units do not concatenate to the chunks. -/
theorem lineSupervisor_drops_tail :
    lineSupervisor [ascii "A;1.0\nB;2.0"] = [ascii "A;1.0\n"] ∧
    (lineSupervisor [ascii "A;1.0\nB;2.0"]).flatten ≠ [ascii "A;1.0\nB;2.0"].flatten := by
  decide

/-- C3: the file `A;1.0\nB;2.0\n` read as one chunk and read as the two
chunks `A;1.0\nB` and `;2.0\n` gives two different final tables: the first
holds the keys A and B, the second the key A and the all-zero key (the byte `B`
after the only line break of the first chunk is lost). -/
theorem run_depends_on_chunking :
    [ascii "A;1.0\nB;2.0\n"].flatten = [ascii "A;1.0\nB", ascii ";2.0\n"].flatten ∧
    run [ascii "A;1.0\nB;2.0\n"] =
      [(key "A", ⟨10, 1, 0, 10⟩), (key "B", ⟨20, 1, 0, 20⟩)] ∧
    run [ascii "A;1.0\nB", ascii ";2.0\n"] =
      [(key "A", ⟨10, 1, 0, 10⟩), (CityName.zero, ⟨20, 1, 0, 20⟩)] := by
  decide

/-- C4: on the file `Paris;20.0` without a line break the remainder is sent
as a unit, the worker that receives it commits nothing, and the final table is
empty. -/
theorem run_paris_unterminated :
    lineSupervisor [ascii "Paris;20.0"] = [ascii "Paris;20.0"] ∧
    run [ascii "Paris;20.0"] = [] := by
  decide

/-- C5: the three-line file `Oslo;1.5\nRome;2.5\nParis;20.0` (last line
unterminated), read as one chunk, reaches the workers whole, as the units
`Oslo;1.5\nRome;2.5\n` and `Paris;20.0`, and the counts of the final table add
up to 2. -/
theorem totalCount_unterminated :
    lineSupervisor [ascii "Oslo;1.5\nRome;2.5\nParis;20.0"] =
      [ascii "Oslo;1.5\nRome;2.5\n", ascii "Paris;20.0"] ∧
    totalCount (run [ascii "Oslo;1.5\nRome;2.5\nParis;20.0"]) = 2 := by
  decide

/-- C6: merging the single worker table `Oslo -> (80, 1, 80, 80)` gives the
final entry `(80, 1, 0, 80)`; merging `Oslo -> (-35, 1, -35, -35)` gives
`(-35, 1, -35, 0)`: a first-seen key does not get an entry equal to the worker
entry. -/
theorem mergeResults_fresh_key :
    mergeResults [[(key "Oslo", ⟨80, 1, 80, 80⟩)]] = [(key "Oslo", ⟨80, 1, 0, 80⟩)] ∧
    mergeResults [[(key "Oslo", ⟨-35, 1, -35, -35⟩)]] = [(key "Oslo", ⟨-35, 1, -35, 0⟩)] := by
  decide

/-- C8: the units `a;-1.0\n` and `a;-2.0\n` give three different final
entries for `a`: one worker taking them in this order, one worker taking them
in the other order, and two workers taking one each. -/
theorem runWorkers_depends_on_assignment :
    runWorkers [[ascii "a;-1.0\n", ascii "a;-2.0\n"]] = [(key "a", ⟨-30, 2, -20, 10⟩)] ∧
    runWorkers [[ascii "a;-2.0\n", ascii "a;-1.0\n"]] = [(key "a", ⟨-30, 2, -10, 20⟩)] ∧
    runWorkers [[ascii "a;-1.0\n"], [ascii "a;-2.0\n"]] = [(key "a", ⟨-30, 2, 0, 20⟩)] := by
  decide

/-- C9: a worker that receives the single unit `a;-1.0\n` sends the table
`a -> (-10, 1, 10, 10)`: the min 10 is above the only folded value -10. -/
theorem worker_negative_first :
    worker [ascii "a;-1.0\n"] = [(key "a", ⟨-10, 1, 10, 10⟩)] ∧
    ¬ ∀ e ∈ worker [ascii "a;-1.0\n"], e.2.min ≤ -10 ∧ -10 ≤ e.2.max := by
  decide

/-- C10: on the file `a;-1.0\n` the final entry of `a` is `(-10, 1, 0, 10)`,
so min * count = 0 is above sum = -10 and the mean is below the min. -/
theorem run_mean_below_min :
    run [ascii "a;-1.0\n"] = [(key "a", ⟨-10, 1, 0, 10⟩)] ∧
    ¬ ∀ e ∈ run [ascii "a;-1.0\n"],
        0 < e.2.count ∧ e.2.min * e.2.count ≤ e.2.sum ∧ e.2.sum ≤ e.2.max * e.2.count := by
  decide

/-! ## Further facts about the merge -/

/-- The final entry of a key is absent when no worker table holds the key, and
otherwise is the fold of lines 241-248 over the worker entries of that key, in
the order they are met, starting from the all-zero array of line 239. -/
theorem mergeResults_get_eq_fold (ts : List Table) (k : CityName) :
    (mergeResults ts).get k =
      if entriesOf k ts.flatten = [] then none
      else some ((entriesOf k ts.flatten).foldl mergeTemps Temps.zero) :=
  mergeResults_get_fold ts k

/-- Every entry of a final table has min at most 0 and max at least 0, whatever
the worker tables hold. -/
theorem mergeResults_min_le_zero_le_max (ts : List Table) (k : CityName) (t : Temps)
    (h : (mergeResults ts).get k = some t) : t.min ≤ 0 ∧ 0 ≤ t.max := by
  rw [mergeResults_get_fold] at h
  split_ifs at h
  simp only [Option.some.injEq] at h
  subst h
  exact foldl_mergeTemps_min_max _ Temps.zero

/-- The bound on min and max at the table `Oslo -> (80, 1, 80, 80)`. -/
theorem mergeResults_min_le_zero_le_max_witness :
    (mergeResults [[(key "Oslo", ⟨80, 1, 80, 80⟩)]]).get (key "Oslo") = some ⟨80, 1, 0, 80⟩ ∧
    ((⟨80, 1, 0, 80⟩ : Temps).min ≤ 0 ∧ 0 ≤ (⟨80, 1, 0, 80⟩ : Temps).max) :=
  ⟨by decide, mergeResults_min_le_zero_le_max [[(key "Oslo", ⟨80, 1, 80, 80⟩)]] (key "Oslo")
    ⟨80, 1, 0, 80⟩ (by decide)⟩

/-! ## Where the bytes of a chunk go -/

/-- The bytes returned by `processChunk`, followed by the bytes after the line
break of a chunk that has exactly one line break, are the leftover followed by
the chunk: those trailing bytes are the only ones `processChunk` loses. -/
theorem processChunk_accounts (chunk leftover : List Nat) :
    (processChunk chunk leftover).1 ++ (processChunk chunk leftover).2 ++ droppedTail chunk =
      leftover ++ chunk := by
  have hf := bytesIndex_range chunk NL
  have hl := bytesLastIndex_range chunk NL
  have hfl := bytesIndex_le_bytesLastIndex chunk NL
  unfold processChunk droppedTail
  simp only []
  by_cases h1 : bytesIndex chunk NL = -1
  · have h2 : ¬ (bytesLastIndex chunk NL ≠ -1 ∧ bytesIndex chunk NL ≠ bytesLastIndex chunk NL) := by
      omega
    have h4 : ¬ (bytesIndex chunk NL ≠ -1 ∧ bytesIndex chunk NL = bytesLastIndex chunk NL) := by
      omega
    have h5 : ¬ (bytesIndex chunk NL ≠ -1) := by omega
    rw [if_neg h2, if_neg h4]
    simp only [if_neg h5, List.nil_append, List.append_nil]
  · have h5 : bytesIndex chunk NL ≠ -1 := h1
    by_cases h3 : bytesIndex chunk NL = bytesLastIndex chunk NL
    · have h2 : ¬ (bytesLastIndex chunk NL ≠ -1 ∧ bytesIndex chunk NL ≠ bytesLastIndex chunk NL) := by
        omega
      have h4 : bytesIndex chunk NL ≠ -1 ∧ bytesIndex chunk NL = bytesLastIndex chunk NL :=
        ⟨h1, h3⟩
      have h6 : bytesLastIndex chunk NL ≠ -1 := h3 ▸ h5
      rw [if_neg h2, if_pos h4]
      simp only [if_pos h5, if_pos h6, slice, sliceFrom, List.append_nil, List.nil_append,
        List.append_assoc, Int.toNat_zero, List.drop_zero, h3, List.take_append_drop]
    · have h2 : bytesLastIndex chunk NL ≠ -1 ∧ bytesIndex chunk NL ≠ bytesLastIndex chunk NL := by
        omega
      have h4 : ¬ (bytesIndex chunk NL ≠ -1 ∧ bytesIndex chunk NL = bytesLastIndex chunk NL) := by
        omega
      rw [if_pos h2, if_neg h4]
      simp only [if_pos h5]
      have hle : (bytesIndex chunk NL + 1).toNat ≤ (bytesLastIndex chunk NL + 1).toNat := by
        omega
      simp only [slice, sliceFrom, List.append_nil, List.append_assoc, Int.toNat_zero,
        List.drop_zero]
      rw [← List.append_assoc (List.take _ chunk), take_append_slice chunk _ _ hle,
        List.take_append_drop]

/-! ## Units without a line break -/

/-- A unit that holds no line break leaves the table of the worker that
receives it unchanged, whatever the state of the worker: a record is committed
at its line break and nowhere else. -/
theorem worker_unit_without_NL (chunk : List Nat) (s : WorkerState) (h : NL ∉ chunk) :
    (chunk.foldl workerStep s).cityTemps = s.cityTemps :=
  foldl_workerStep_cityTemps chunk s h

/-- The unit `Paris;20.0` leaves the empty table of a fresh worker empty. -/
theorem worker_unit_without_NL_witness :
    NL ∉ ascii "Paris;20.0" ∧
    ((ascii "Paris;20.0").foldl workerStep WorkerState.init).cityTemps =
      WorkerState.init.cityTemps :=
  ⟨by decide, worker_unit_without_NL (ascii "Paris;20.0") WorkerState.init (by decide)⟩


theorem bytesIndex_eq_neg_one_iff (s : List Nat) (b : Nat) :
    bytesIndex s b = -1 ↔ b ∉ s := by
  induction s with
  | nil => simp [bytesIndex]
  | cons x xs ih =>
    have h1 := bytesIndex_range xs b
    by_cases hx : x = b
    · simp [bytesIndex, hx]
    · have hx' : ¬ b = x := fun e => hx e.symm
      simp only [bytesIndex, if_neg hx, List.mem_cons, not_or]
      constructor
      · intro h
        refine ⟨hx', ih.mp ?_⟩
        split_ifs at h <;> omega
      · intro h
        rw [if_pos (ih.mpr h.2)]

theorem bytesIndex_split (s : List Nat) (b : Nat) (h : bytesIndex s b ≠ -1) :
    ∃ pre post, s = pre ++ b :: post ∧ b ∉ pre ∧ (pre.length : Int) = bytesIndex s b := by
  induction s with
  | nil => simp [bytesIndex] at h
  | cons x xs ih =>
    by_cases hx : x = b
    · exact ⟨[], xs, by simp [hx], by simp, by simp [bytesIndex, hx]⟩
    · have hx' : ¬ b = x := fun e => hx e.symm
      simp only [bytesIndex, if_neg hx] at h ⊢
      by_cases hr : bytesIndex xs b = -1
      · simp [hr] at h
      · obtain ⟨pre, post, h1, h2, h3⟩ := ih hr
        refine ⟨x :: pre, post, by simp [h1], by simp [hx', h2], ?_⟩
        simp only [if_neg hr, List.length_cons]
        omega

theorem bytesLastIndex_split (s : List Nat) (b : Nat) (h : bytesLastIndex s b ≠ -1) :
    ∃ pre post, s = pre ++ b :: post ∧ b ∉ post ∧ (pre.length : Int) = bytesLastIndex s b := by
  induction s with
  | nil => simp [bytesLastIndex] at h
  | cons x xs ih =>
    simp only [bytesLastIndex] at h ⊢
    by_cases hr : bytesLastIndex xs b = -1
    · have hr' : ¬ (bytesLastIndex xs b ≠ -1) := fun e => e hr
      rw [if_neg hr'] at h ⊢
      by_cases hx : x = b
      · have hxs : b ∉ xs := by
          have := (bytesIndex_le_bytesLastIndex xs b).2.2 hr
          exact (bytesIndex_eq_neg_one_iff xs b).mp this
        exact ⟨[], xs, by simp [hx], hxs, by simp [hx]⟩
      · simp [hx] at h
    · obtain ⟨pre, post, h1, h2, h3⟩ := ih hr
      have hr' : bytesLastIndex xs b ≠ -1 := hr
      refine ⟨x :: pre, post, by simp [h1], h2, ?_⟩
      rw [if_pos hr']
      simp only [List.length_cons]
      omega


theorem take_length_succ_append (pre post : List Nat) (b : Nat) :
    (pre ++ b :: post).take (pre.length + 1) = pre ++ [b] := by
  induction pre with
  | nil => simp
  | cons x xs ih => simpa using ih

theorem drop_length_succ_append (pre post : List Nat) (b : Nat) :
    (pre ++ b :: post).drop (pre.length + 1) = post := by
  induction pre with
  | nil => simp
  | cons x xs ih => simp

theorem processChunk_cases (chunk leftover : List Nat) :
    (NL ∉ chunk ∧ processChunk chunk leftover = ([], leftover ++ chunk)) ∨
    (∃ pre post, chunk = pre ++ NL :: post ∧ NL ∉ pre ∧ NL ∉ post ∧
      processChunk chunk leftover = (leftover ++ (pre ++ [NL]), [])) ∨
    (∃ pre mid post, chunk = pre ++ NL :: (mid ++ NL :: post) ∧ NL ∉ pre ∧ NL ∉ post ∧
      processChunk chunk leftover = (leftover ++ (pre ++ [NL]) ++ (mid ++ [NL]), post)) := by
  have hfl := bytesIndex_le_bytesLastIndex chunk NL
  by_cases h1 : bytesIndex chunk NL = -1
  · left
    have hl : bytesLastIndex chunk NL = -1 := hfl.2.1 h1
    refine ⟨(bytesIndex_eq_neg_one_iff chunk NL).mp h1, ?_⟩
    simp [processChunk, h1, hl]
  · right
    have hl1 : bytesLastIndex chunk NL ≠ -1 := fun e => h1 (hfl.2.2 e)
    obtain ⟨pre, post, hc, hpre, hlen⟩ := bytesIndex_split chunk NL h1
    obtain ⟨pre2, post2, hc2, hpost2, hlen2⟩ := bytesLastIndex_split chunk NL hl1
    have e1 : (bytesIndex chunk NL + 1).toNat = pre.length + 1 := by omega
    have e2 : (bytesLastIndex chunk NL + 1).toNat = pre2.length + 1 := by omega
    by_cases h3 : bytesIndex chunk NL = bytesLastIndex chunk NL
    · left
      have hlen12 : pre.length = pre2.length := by omega
      have hsame := List.append_inj (hc.symm.trans hc2) hlen12
      have hpost : post = post2 := by
        have := hsame.2
        simpa using this
      refine ⟨pre, post, hc, hpre, hpost ▸ hpost2, ?_⟩
      have hcond : ¬ (bytesLastIndex chunk NL ≠ -1 ∧
          bytesIndex chunk NL ≠ bytesLastIndex chunk NL) := fun e => e.2 h3
      have h1' : bytesIndex chunk NL ≠ -1 := h1
      simp only [processChunk, if_neg hcond, if_pos h1', slice, e1, Int.toNat_zero,
        List.drop_zero]
      rw [hc, take_length_succ_append]
    · right
      have hlt : pre.length < pre2.length := by omega
      have hcond : bytesLastIndex chunk NL ≠ -1 ∧
          bytesIndex chunk NL ≠ bytesLastIndex chunk NL := ⟨hl1, h3⟩
      have h1' : bytesIndex chunk NL ≠ -1 := h1
      have hmid : ∃ mid, pre2 = pre ++ NL :: mid := by
        have heq : pre ++ NL :: post = pre2 ++ NL :: post2 := hc.symm.trans hc2
        rcases List.append_eq_append_iff.mp heq with ⟨a, ha, hb⟩ | ⟨c, hc', hd⟩
        · cases a with
          | nil => simp at ha; rw [ha] at hlt; omega
          | cons x xs =>
            simp only [List.cons_append, List.cons.injEq] at hb
            exact ⟨xs, by rw [ha, hb.1]⟩
        · rw [hc'] at hlt
          simp at hlt
      obtain ⟨mid, hmid⟩ := hmid
      have hchunk : chunk = pre ++ NL :: (mid ++ NL :: post2) := by
        rw [hc2, hmid]; simp
      refine ⟨pre, mid, post2, hchunk, hpre, hpost2, ?_⟩
      simp only [processChunk, if_pos hcond, if_pos h1', slice, sliceFrom, e1, e2,
        Int.toNat_zero, List.drop_zero]
      have t1 : List.take (pre.length + 1) chunk = pre ++ [NL] := by
        rw [hc, take_length_succ_append]
      have t2 : List.take (pre2.length + 1) chunk = pre2 ++ [NL] := by
        rw [hc2, take_length_succ_append]
      have t3 : List.drop (pre2.length + 1) chunk = post2 := by
        rw [hc2, drop_length_succ_append]
      have t4 : List.drop (pre.length + 1) (pre2 ++ [NL]) = mid ++ [NL] := by
        rw [hmid]
        have := drop_length_succ_append pre (mid ++ [NL]) NL
        simp
      rw [t1, t2, t3, t4]


theorem processChunk_validPart_last (chunk leftover : List Nat) :
    (processChunk chunk leftover).1 = [] ∨
      (processChunk chunk leftover).1.getLast? = some NL := by
  rcases processChunk_cases chunk leftover with ⟨_, h⟩ | ⟨pre, post, _, _, _, h⟩ |
      ⟨pre, mid, post, _, _, _, h⟩
  · left; rw [h]
  · right; rw [h, ← List.append_assoc, List.getLast?_concat]
  · right; rw [h, ← List.append_assoc, List.getLast?_concat]

theorem processChunk_leftover_no_NL (chunk leftover : List Nat) (hl : NL ∉ leftover) :
    NL ∉ (processChunk chunk leftover).2 := by
  rcases processChunk_cases chunk leftover with ⟨hc, h⟩ | ⟨pre, post, _, _, _, h⟩ |
      ⟨pre, mid, post, _, _, hpost, h⟩
  · rw [h]; simp [hl, hc]
  · rw [h]; simp
  · rw [h]; exact hpost

theorem foldl_supStep_invariant (rawChunks : List (List Nat)) (st : SupState)
    (hb : NL ∉ st.buffer) (hs : ∀ u ∈ st.sent, u.getLast? = some NL) :
    NL ∉ (rawChunks.foldl supStep st).buffer ∧
    ∀ u ∈ (rawChunks.foldl supStep st).sent, u.getLast? = some NL := by
  induction rawChunks generalizing st with
  | nil => exact ⟨hb, hs⟩
  | cons c cs ih =>
    rw [List.foldl_cons]
    apply ih
    · exact processChunk_leftover_no_NL c st.buffer hb
    · intro u hu
      simp only [supStep] at hu
      split_ifs at hu with hlen
      · rcases List.mem_append.mp hu with h | h
        · exact hs u h
        · have hu' : u = (processChunk c st.buffer).1 := by simpa using h
          rcases processChunk_validPart_last c st.buffer with h0 | h1
          · rw [h0] at hlen; simp at hlen
          · rw [hu']; exact h1
      · exact hs u hu

/-- C12: the `validPart` returned by `processChunk` is empty or ends with the
line break, for every chunk and leftover; hence every unit that `lineSupervisor`
sends in its loop ends with the line break, and the units of `lineSupervisor`
are these followed by the flushed remainder when it is not empty. -/
theorem units_end_with_line_break (chunk leftover : List Nat) (rawChunks : List (List Nat)) :
    ((processChunk chunk leftover).1 = [] ∨
      (processChunk chunk leftover).1.getLast? = some NL) ∧
    (∀ u ∈ (rawChunks.foldl supStep { sent := [], buffer := [] }).sent,
      u.getLast? = some NL) ∧
    lineSupervisor rawChunks =
      (rawChunks.foldl supStep { sent := [], buffer := [] }).sent ++
        (if (rawChunks.foldl supStep { sent := [], buffer := [] }).buffer.length > 0 then
          [(rawChunks.foldl supStep { sent := [], buffer := [] }).buffer] else []) := by
  refine ⟨processChunk_validPart_last chunk leftover, ?_, ?_⟩
  · exact (foldl_supStep_invariant rawChunks _ (by simp) (by simp)).2
  · unfold lineSupervisor
    simp only []
    split_ifs <;> simp

/-- C18: when the leftover holds no line break, the `newLeftover` returned by
`processChunk` holds none, for every chunk; hence the buffer of `lineSupervisor`,
empty at the start, holds no line break after any list of raw chunks. -/
theorem remainder_without_line_break (chunk leftover : List Nat) (rawChunks : List (List Nat))
    (h : NL ∉ leftover) :
    NL ∉ (processChunk chunk leftover).2 ∧
    NL ∉ (rawChunks.foldl supStep { sent := [], buffer := [] }).buffer :=
  ⟨processChunk_leftover_no_NL chunk leftover h,
    (foldl_supStep_invariant rawChunks _ (by simp) (by simp)).1⟩

/-- C18 at the leftover `Pa`, the chunk `ris;20.0\nRome;1.0\nOs` and the raw chunks
`Paris;2`, `0.0\nOslo;1`, `.5`. -/
theorem remainder_without_line_break_witness :
    NL ∉ ascii "Pa" ∧
    (NL ∉ (processChunk (ascii "ris;20.0\nRome;1.0\nOs") (ascii "Pa")).2 ∧
     NL ∉ ([ascii "Paris;2", ascii "0.0\nOslo;1", ascii ".5"].foldl supStep
        { sent := [], buffer := [] }).buffer) :=
  ⟨by decide, remainder_without_line_break (ascii "ris;20.0\nRome;1.0\nOs") (ascii "Pa")
    [ascii "Paris;2", ascii "0.0\nOslo;1", ascii ".5"] (by decide)⟩


/-! ## Counting line breaks through the splitter -/

theorem count_eq_zero_of_not_mem_NL (l : List Nat) (h : NL ∉ l) : l.count NL = 0 :=
  List.count_eq_zero_of_not_mem h

theorem processChunk_count_NL (chunk leftover : List Nat) (hl : NL ∉ leftover) :
    (processChunk chunk leftover).1.count NL = chunk.count NL := by
  have h0 := count_eq_zero_of_not_mem_NL leftover hl
  rcases processChunk_cases chunk leftover with ⟨hc, h⟩ | ⟨pre, post, hc, hpre, hpost, h⟩ |
      ⟨pre, mid, post, hc, hpre, hpost, h⟩
  · rw [h, count_eq_zero_of_not_mem_NL chunk hc]; simp
  · rw [h, hc]
    simp [List.count_append, List.count_cons, h0, count_eq_zero_of_not_mem_NL pre hpre,
      count_eq_zero_of_not_mem_NL post hpost]
  · rw [h, hc]
    simp [List.count_append, List.count_cons, h0, count_eq_zero_of_not_mem_NL pre hpre,
      count_eq_zero_of_not_mem_NL post hpost]

theorem foldl_supStep_count_NL (rawChunks : List (List Nat)) (st : SupState)
    (hb : NL ∉ st.buffer) :
    (rawChunks.foldl supStep st).sent.flatten.count NL =
      st.sent.flatten.count NL + rawChunks.flatten.count NL := by
  induction rawChunks generalizing st with
  | nil => simp
  | cons c cs ih =>
    rw [List.foldl_cons, ih _ (processChunk_leftover_no_NL c st.buffer hb)]
    have hc := processChunk_count_NL c st.buffer hb
    simp only [supStep, List.flatten_cons, List.count_append]
    split_ifs with hlen
    · simp only [List.flatten_append, List.count_append, List.flatten_cons, List.flatten_nil,
        List.append_nil, hc]
      omega
    · have hnil : (processChunk c st.buffer).1 = [] := by
        cases hv : (processChunk c st.buffer).1 with
        | nil => rfl
        | cons x xs => rw [hv] at hlen; simp at hlen
      rw [hnil] at hc
      simp only [List.count_nil] at hc
      omega

theorem lineSupervisor_count_NL (rawChunks : List (List Nat)) :
    (lineSupervisor rawChunks).flatten.count NL = rawChunks.flatten.count NL := by
  have hinv := foldl_supStep_invariant rawChunks { sent := [], buffer := [] }
    (by simp) (by simp)
  have hcount := foldl_supStep_count_NL rawChunks { sent := [], buffer := [] } (by simp)
  simp only [List.flatten_nil, List.count_nil, Nat.zero_add] at hcount
  unfold lineSupervisor
  simp only []
  split_ifs
  · rw [List.flatten_append, List.count_append, hcount]
    simp [count_eq_zero_of_not_mem_NL _ hinv.1]
  · exact hcount


/-! ## Counting records in the tables -/

theorem wrapInt64_of_range (x : Int) (h1 : -9223372036854775808 ≤ x)
    (h2 : x < 9223372036854775808) : wrapInt64 x = x := by
  unfold wrapInt64
  omega

theorem totalCount_cons (p : CityName × Temps) (m : Table) :
    totalCount (p :: m) = p.2.count + totalCount m := by
  simp [totalCount]

theorem totalCount_nonneg (m : Table) (h : ∀ e ∈ m, 0 ≤ e.2.count) : 0 ≤ totalCount m := by
  induction m with
  | nil => simp [totalCount]
  | cons p rest ih =>
    rw [totalCount_cons]
    have h1 := h p (by simp)
    have h2 := ih (fun e he => h e (by simp [he]))
    omega

theorem Table.get_count_le (m : Table) (k : CityName) (ct : Temps)
    (h : ∀ e ∈ m, 0 ≤ e.2.count) (hg : m.get k = some ct) :
    0 ≤ ct.count ∧ ct.count ≤ totalCount m := by
  induction m with
  | nil => simp [Table.get] at hg
  | cons p rest ih =>
    obtain ⟨a, w⟩ := p
    have hrest : ∀ e ∈ rest, 0 ≤ e.2.count := fun e he => h e (by simp [he])
    have hw : 0 ≤ w.count := h (a, w) (by simp)
    rw [totalCount_cons]
    by_cases hak : a = k
    · simp only [Table.get, if_pos hak, Option.some.injEq] at hg
      subst hg
      have := totalCount_nonneg rest hrest
      simp only
      omega
    · simp only [Table.get, if_neg hak] at hg
      have := ih hrest hg
      simp only
      omega

theorem Table.totalCount_put_none (m : Table) (k : CityName) (v : Temps)
    (hg : m.get k = none) : totalCount (m.put k v) = totalCount m + v.count := by
  induction m with
  | nil => simp [Table.put, totalCount]
  | cons p rest ih =>
    obtain ⟨a, w⟩ := p
    by_cases hak : a = k
    · simp [Table.get, hak] at hg
    · simp only [Table.get, if_neg hak] at hg
      simp only [Table.put, if_neg hak, totalCount_cons, ih hg]
      omega

theorem Table.totalCount_put_some (m : Table) (k : CityName) (v ct : Temps)
    (hg : m.get k = some ct) :
    totalCount (m.put k v) = totalCount m + v.count - ct.count := by
  induction m with
  | nil => simp [Table.get] at hg
  | cons p rest ih =>
    obtain ⟨a, w⟩ := p
    by_cases hak : a = k
    · simp only [Table.get, if_pos hak, Option.some.injEq] at hg
      subst hg
      simp only [Table.put, if_pos hak, totalCount_cons]
      omega
    · simp only [Table.get, if_neg hak] at hg
      simp only [Table.put, if_neg hak, totalCount_cons, ih hg]
      omega

theorem Table.count_nonneg_put (m : Table) (k : CityName) (v : Temps)
    (h : ∀ e ∈ m, 0 ≤ e.2.count) (hv : 0 ≤ v.count) :
    ∀ e ∈ m.put k v, 0 ≤ e.2.count := by
  induction m with
  | nil =>
    intro e he
    simp only [Table.put, List.mem_singleton] at he
    rw [he]; exact hv
  | cons p rest ih =>
    obtain ⟨a, w⟩ := p
    have hrest : ∀ e ∈ rest, 0 ≤ e.2.count := fun e he => h e (by simp [he])
    intro e he
    by_cases hak : a = k
    · simp only [Table.put, if_pos hak, List.mem_cons] at he
      rcases he with he | he
      · rw [he]; exact hv
      · exact hrest e he
    · simp only [Table.put, if_neg hak, List.mem_cons] at he
      rcases he with he | he
      · rw [he]; exact h (a, w) (by simp)
      · exact ih hrest e he


theorem commitLine_count (s : WorkerState) (h : ∀ e ∈ s.cityTemps, 0 ≤ e.2.count)
    (hb : totalCount s.cityTemps + 1 < 9223372036854775808) :
    totalCount (commitLine s).cityTemps = totalCount s.cityTemps + 1 ∧
    ∀ e ∈ (commitLine s).cityTemps, 0 ≤ e.2.count := by
  cases hget : s.cityTemps.get s.city with
  | none =>
    simp only [commitLine, hget]
    exact ⟨Table.totalCount_put_none _ _ _ hget, Table.count_nonneg_put _ _ _ h (by simp)⟩
  | some ct =>
    have hct := Table.get_count_le _ _ _ h hget
    have hw : wrapInt64 (ct.count + 1) = ct.count + 1 :=
      wrapInt64_of_range _ (by omega) (by omega)
    simp only [commitLine, hget]
    refine ⟨?_, Table.count_nonneg_put _ _ _ h (by simp only [hw]; omega)⟩
    rw [Table.totalCount_put_some _ _ _ _ hget]
    simp only [hw]
    omega

theorem foldl_workerStep_count (bs : List Nat) (s : WorkerState)
    (h : ∀ e ∈ s.cityTemps, 0 ≤ e.2.count)
    (hb : totalCount s.cityTemps + bs.count NL < 9223372036854775808) :
    totalCount (bs.foldl workerStep s).cityTemps = totalCount s.cityTemps + bs.count NL ∧
    ∀ e ∈ (bs.foldl workerStep s).cityTemps, 0 ≤ e.2.count := by
  induction bs generalizing s with
  | nil => simpa using h
  | cons b bs ih =>
    rw [List.foldl_cons]
    by_cases hbNL : b = NL
    · subst hbNL
      have hstep : workerStep s NL = commitLine s := by
        simp [workerStep, NL, SEMI]
      simp only [List.count_cons_self, Nat.cast_add, Nat.cast_one] at hb ⊢
      have hc := commitLine_count s h (by omega)
      rw [hstep]
      have := ih (commitLine s) hc.2 (by rw [hc.1]; omega)
      rw [hc.1] at this
      refine ⟨by rw [this.1]; omega, this.2⟩
    · have hstep := workerStep_cityTemps s b hbNL
      have hcnt : (b :: bs).count NL = bs.count NL := by
        rw [List.count_cons_of_ne (fun e => hbNL e.symm)]
      rw [hcnt] at hb ⊢
      have := ih (workerStep s b) (by rw [hstep]; exact h) (by rw [hstep]; exact hb)
      rw [hstep] at this
      exact this

theorem foldl_units_count (units : List (List Nat)) (s : WorkerState)
    (h : ∀ e ∈ s.cityTemps, 0 ≤ e.2.count)
    (hb : totalCount s.cityTemps + units.flatten.count NL < 9223372036854775808) :
    totalCount (units.foldl (fun s chunk => chunk.foldl workerStep s) s).cityTemps =
      totalCount s.cityTemps + units.flatten.count NL ∧
    ∀ e ∈ (units.foldl (fun s chunk => chunk.foldl workerStep s) s).cityTemps,
      0 ≤ e.2.count := by
  have hflat : units.foldl (fun s chunk => chunk.foldl workerStep s) s =
      units.flatten.foldl workerStep s := by
    rw [List.foldl_flatten]
  rw [hflat]
  exact foldl_workerStep_count _ s h hb

theorem worker_count (units : List (List Nat))
    (hb : (units.flatten.count NL : Int) < 9223372036854775808) :
    totalCount (worker units) = units.flatten.count NL ∧
    ∀ e ∈ worker units, 0 ≤ e.2.count := by
  have := foldl_units_count units WorkerState.init (by simp [WorkerState.init])
    (by simpa [WorkerState.init, totalCount] using hb)
  simpa [worker, workerRun, WorkerState.init, totalCount] using this


theorem mergeEntry_count (m : Table) (e : CityName × Temps)
    (hm : ∀ x ∈ m, 0 ≤ x.2.count) (he : 0 ≤ e.2.count)
    (hb : totalCount m + e.2.count < 9223372036854775808) :
    totalCount (mergeEntry m e) = totalCount m + e.2.count ∧
    ∀ x ∈ mergeEntry m e, 0 ≤ x.2.count := by
  have hm0 := totalCount_nonneg m hm
  cases hget : m.get e.1 with
  | none =>
    have hw : wrapInt64 (0 + e.2.count) = e.2.count := by
      rw [Int.zero_add]; exact wrapInt64_of_range _ (by omega) (by omega)
    simp only [mergeEntry, hget, mergeTemps, Temps.zero]
    refine ⟨?_, Table.count_nonneg_put _ _ _ hm (by simp only [hw]; exact he)⟩
    rw [Table.totalCount_put_none _ _ _ hget]
    simp only [hw]
  | some t =>
    have ht := Table.get_count_le _ _ _ hm hget
    have hw : wrapInt64 (t.count + e.2.count) = t.count + e.2.count :=
      wrapInt64_of_range _ (by omega) (by omega)
    simp only [mergeEntry, hget, mergeTemps]
    refine ⟨?_, Table.count_nonneg_put _ _ _ hm (by simp only [hw]; omega)⟩
    rw [Table.totalCount_put_some _ _ _ _ hget]
    simp only [hw]
    omega

theorem foldl_mergeEntry_count (es : Table) (m : Table)
    (hm : ∀ x ∈ m, 0 ≤ x.2.count) (hes : ∀ x ∈ es, 0 ≤ x.2.count)
    (hb : totalCount m + totalCount es < 9223372036854775808) :
    totalCount (es.foldl mergeEntry m) = totalCount m + totalCount es ∧
    ∀ x ∈ es.foldl mergeEntry m, 0 ≤ x.2.count := by
  induction es generalizing m with
  | nil => simpa [totalCount] using hm
  | cons e es ih =>
    have he : 0 ≤ e.2.count := hes e (by simp)
    have hrest : ∀ x ∈ es, 0 ≤ x.2.count := fun x hx => hes x (by simp [hx])
    have hes0 := totalCount_nonneg es hrest
    rw [totalCount_cons] at hb ⊢
    rw [List.foldl_cons]
    have h1 := mergeEntry_count m e hm he (by omega)
    have h2 := ih (mergeEntry m e) h1.2 hrest (by rw [h1.1]; omega)
    refine ⟨by rw [h2.1, h1.1]; omega, h2.2⟩

theorem foldl_tables_count (ts : List Table) (m : Table)
    (hm : ∀ x ∈ m, 0 ≤ x.2.count) (hts : ∀ t ∈ ts, ∀ x ∈ t, 0 ≤ x.2.count)
    (hb : totalCount m + (ts.map totalCount).sum < 9223372036854775808) :
    totalCount (ts.foldl (fun f t => t.foldl mergeEntry f) m) =
      totalCount m + (ts.map totalCount).sum ∧
    ∀ x ∈ ts.foldl (fun f t => t.foldl mergeEntry f) m, 0 ≤ x.2.count := by
  induction ts generalizing m with
  | nil => simpa using hm
  | cons t ts ih =>
    have ht : ∀ x ∈ t, 0 ≤ x.2.count := hts t (by simp)
    have hrest : ∀ t' ∈ ts, ∀ x ∈ t', 0 ≤ x.2.count := fun t' ht' => hts t' (by simp [ht'])
    have hsum0 : 0 ≤ (ts.map totalCount).sum := by
      apply List.sum_nonneg
      intro x hx
      obtain ⟨t', ht', rfl⟩ := List.mem_map.mp hx
      exact totalCount_nonneg t' (hrest t' ht')
    simp only [List.map_cons, List.sum_cons, List.foldl_cons] at hb ⊢
    have h1 := foldl_mergeEntry_count t m hm ht (by omega)
    have h2 := ih (t.foldl mergeEntry m) h1.2 hrest (by rw [h1.1]; omega)
    refine ⟨by rw [h2.1, h1.1]; omega, h2.2⟩

theorem workers_count (assignment : List (List (List Nat)))
    (hb : (assignment.flatten.flatten.count NL : Int) < 9223372036854775808) :
    ((assignment.map worker).map totalCount).sum = assignment.flatten.flatten.count NL ∧
    ∀ t ∈ assignment.map worker, ∀ x ∈ t, 0 ≤ x.2.count := by
  induction assignment with
  | nil => simp
  | cons units rest ih =>
    simp only [List.flatten_cons, List.flatten_append, List.count_append, Nat.cast_add] at hb ⊢
    have h1 := worker_count units (by omega)
    have h2 := ih (by omega)
    refine ⟨?_, ?_⟩
    · simp only [List.map_cons, List.sum_cons, h1.1, h2.1]
    · intro t ht
      simp only [List.map_cons, List.mem_cons] at ht
      rcases ht with ht | ht
      · rw [ht]; exact h1.2
      · exact h2.2 t ht

theorem runWorkers_count (assignment : List (List (List Nat)))
    (hb : (assignment.flatten.flatten.count NL : Int) < 9223372036854775808) :
    totalCount (runWorkers assignment) = assignment.flatten.flatten.count NL := by
  have hw := workers_count assignment hb
  have := foldl_tables_count (assignment.map worker) [] (by simp) hw.2
    (by simp only [totalCount, List.map_nil, List.sum_nil, Int.zero_add]
        have := hw.1
        simp only [totalCount] at this
        rw [this]; exact hb)
  simp only [runWorkers, mergeResults]
  rw [this.1, hw.1]
  simp [totalCount]


/-- When every worker reads its units with the bytes they held when they were
sent: for every list of raw chunks shorter than 2^63 bytes in all, and every way
of dealing the units sent by `lineSupervisor` to the workers (any number of
workers, each receiving its units in any order), the counts of the final table
add up to the number of line breaks in the raw chunks. -/
theorem totalCount_eq_line_breaks (rawChunks : List (List Nat))
    (assignment : List (List (List Nat)))
    (hassign : assignment.flatten.Perm (lineSupervisor rawChunks))
    (hsize : (rawChunks.flatten.length : Int) < 9223372036854775808) :
    totalCount (runWorkers assignment) = rawChunks.flatten.count NL := by
  have h1 : assignment.flatten.flatten.count NL = rawChunks.flatten.count NL := by
    rw [(hassign.flatten).count_eq NL, lineSupervisor_count_NL]
  have h2 : rawChunks.flatten.count NL ≤ rawChunks.flatten.length := List.count_le_length _ _
  rw [← h1]
  exact runWorkers_count assignment (by rw [h1]; omega)

/-- The count of the units read as sent, at the raw chunks `A;1.0\nB`,
`;2.0\nC;3.0\n`, `D;4` (three line breaks), whose three units `A;1.0\n`, `;2.0\nC;3.0\n`, `D;4` are dealt to three
workers. -/
theorem totalCount_eq_line_breaks_witness :
    ([[ascii ";2.0\nC;3.0\n"], [ascii "D;4"], [ascii "A;1.0\n"]].flatten.Perm
      (lineSupervisor [ascii "A;1.0\nB", ascii ";2.0\nC;3.0\n", ascii "D;4"]) ∧
     ([ascii "A;1.0\nB", ascii ";2.0\nC;3.0\n", ascii "D;4"].flatten.length : Int)
        < 9223372036854775808) ∧
    totalCount (runWorkers [[ascii ";2.0\nC;3.0\n"], [ascii "D;4"], [ascii "A;1.0\n"]]) =
      ([ascii "A;1.0\nB", ascii ";2.0\nC;3.0\n", ascii "D;4"].flatten.count NL : Nat) :=
  ⟨⟨by decide, by decide⟩,
    totalCount_eq_line_breaks [ascii "A;1.0\nB", ascii ";2.0\nC;3.0\n", ascii "D;4"]
      [[ascii ";2.0\nC;3.0\n"], [ascii "D;4"], [ascii "A;1.0\n"]] (by decide) (by decide)⟩


/-! ## The commit at a line break -/

theorem workerStep_NL (s : WorkerState) : workerStep s NL = commitLine s := by
  simp [workerStep, NL, SEMI]

theorem commitLine_get (s : WorkerState) (k : CityName) :
    (commitLine s).cityTemps.get k =
      if s.city = k then
        some (match s.cityTemps.get s.city with
          | none =>
            { sum := committedValue s, count := 1,
              min := if s.isNegative then wrapInt64 (-committedValue s) else committedValue s,
              max := if s.isNegative then wrapInt64 (-committedValue s) else committedValue s }
          | some ct =>
            { sum := wrapInt64 (ct.sum + committedValue s),
              count := wrapInt64 (ct.count + 1),
              min := if committedValue s < ct.min then committedValue s else ct.min,
              max := if committedValue s > ct.max then committedValue s else ct.max })
      else s.cityTemps.get k := by
  cases hget : s.cityTemps.get s.city with
  | none => simp only [commitLine, hget, Table.get_put, committedValue]
  | some ct => simp only [commitLine, hget, Table.get_put, committedValue]

/-- C14: after the bytes `a;-1.0`, read from the reset state with an empty
table, the key is `a`, `temp` is 10 and the sign flag is set (the value -10);
reading the line break then makes the table gain the entry
`a -> (-10, 1, 10, 10)`, not `(-10, 1, -10, -10)`. -/
theorem commit_first_negative :
    (ascii "a;-1.0").foldl workerStep (resetState []) =
      { cityTemps := [], city := key "a", cityLen := 64, temp := 10, isNegative := true } ∧
    (workerStep ((ascii "a;-1.0").foldl workerStep (resetState [])) NL).cityTemps =
      [(key "a", ⟨-10, 1, 10, 10⟩)] := by
  decide


/-! ## The byte loop on the parts of a line -/

theorem foldl_workerStep_accumulate (bs : List Nat) (s : WorkerState)
    (hc : 44 ≤ s.cityLen)
    (hbs : ∀ b ∈ bs, b ≠ SEMI ∧ b ≠ NL ∧ b ≠ DOT ∧ b ≠ MINUS) :
    bs.foldl workerStep s = { s with temp := accumulate s.temp bs } := by
  induction bs generalizing s with
  | nil => simp [accumulate]
  | cons b bs ih =>
    obtain ⟨h1, h2, h3, h4⟩ := hbs b (by simp)
    have hstep : workerStep s b =
        { s with temp := wrapInt64 (s.temp * 10 + (byteSubZero b : Int)) } := by
      have hlt : ¬ s.cityLen < 44 := by omega
      simp only [workerStep, if_neg h1, if_neg h2, if_neg h3, if_neg h4, if_neg hlt]
    have hrec := ih (workerStep s b) (by rw [hstep]; exact hc)
      (fun x hx => hbs x (by simp [hx]))
    rw [List.foldl_cons, hrec, hstep]
    simp [accumulate]

theorem foldl_workerStep_name (bs : List Nat) (s : WorkerState)
    (hlen : s.cityLen + bs.length ≤ 44)
    (hbs : ∀ b ∈ bs, b ≠ SEMI ∧ b ≠ NL ∧ b ≠ DOT ∧ b ≠ MINUS) :
    bs.foldl workerStep s =
      { s with city := writeName s.city s.cityLen bs, cityLen := s.cityLen + bs.length } := by
  induction bs generalizing s with
  | nil => simp [writeName]
  | cons b bs ih =>
    obtain ⟨h1, h2, h3, h4⟩ := hbs b (by simp)
    simp only [List.length_cons] at hlen
    have hstep : workerStep s b =
        { s with city := s.city.set s.cityLen b, cityLen := s.cityLen + 1 } := by
      have hlt : s.cityLen < 44 := by omega
      simp only [workerStep, if_neg h1, if_neg h2, if_neg h3, if_neg h4, if_pos hlt]
    have hrec := ih (workerStep s b) (by rw [hstep]; simp only []; omega)
      (fun x hx => hbs x (by simp [hx]))
    rw [List.foldl_cons, hrec, hstep]
    simp only [writeName, List.length_cons, WorkerState.mk.injEq, true_and, and_true]
    omega

theorem foldl_workerStep_name_any (bs : List Nat) (s : WorkerState)
    (hlen : s.cityLen + bs.length ≤ 44)
    (hbs : ∀ b ∈ bs, b ≠ SEMI ∧ b ≠ NL) :
    (bs.foldl workerStep s).temp = s.temp ∧
    (bs.foldl workerStep s).cityTemps = s.cityTemps ∧
    (bs.foldl workerStep s).cityLen ≤ s.cityLen + bs.length := by
  induction bs generalizing s with
  | nil => simp
  | cons b bs ih =>
    obtain ⟨h1, h2⟩ := hbs b (by simp)
    simp only [List.length_cons] at hlen
    have hlt : s.cityLen < 44 := by omega
    have hstep : (workerStep s b).temp = s.temp ∧ (workerStep s b).cityTemps = s.cityTemps ∧
        (workerStep s b).cityLen ≤ s.cityLen + 1 := by
      simp only [workerStep, if_neg h1, if_neg h2, if_pos hlt]
      split_ifs <;> simp
    have := ih (workerStep s b) (by omega) (fun x hx => hbs x (by simp [hx]))
    rw [List.foldl_cons]
    simp only [List.length_cons]
    refine ⟨this.1.trans hstep.1, this.2.1.trans hstep.2.1, ?_⟩
    omega

theorem writeName_append_replicate (pre bs : List Nat) (n : Nat) (h : bs.length ≤ n) :
    writeName (pre ++ List.replicate n 0) pre.length bs =
      pre ++ bs ++ List.replicate (n - bs.length) 0 := by
  induction bs generalizing pre n with
  | nil => simp [writeName]
  | cons b bs ih =>
    simp only [List.length_cons] at h
    obtain ⟨m, rfl⟩ : ∃ m, n = m + 1 := ⟨n - 1, by omega⟩
    have hset : (pre ++ List.replicate (m + 1) 0).set pre.length b =
        (pre ++ [b]) ++ List.replicate m 0 := by
      rw [List.set_append_right _ _ (Nat.le_refl _)]
      simp [List.replicate_succ]
    have := ih (pre ++ [b]) m (by omega)
    simp only [List.length_append, List.length_singleton] at this
    simp only [writeName, hset, this, List.length_cons]
    simp

theorem writeName_zero (name : List Nat) (h : name.length ≤ 64) :
    writeName CityName.zero 0 name = padName name := by
  have := writeName_append_replicate [] name 64 h
  simpa [CityName.zero, padName] using this


/-! ## The accumulator and the decimal value -/

theorem byteSubZero_eq (b : Nat) : (byteSubZero b : Int) = ((b : Int) - 48) % 256 := by
  unfold byteSubZero
  omega

theorem wrapInt64_step (x c : Int) :
    wrapInt64 (wrapInt64 x * 10 + c) = wrapInt64 (x * 10 + c) := by
  unfold wrapInt64
  omega

theorem wrapInt64_neg (x : Int) : wrapInt64 (-wrapInt64 x) = wrapInt64 (-x) := by
  unfold wrapInt64
  omega

theorem accumulate_wrap (bs : List Nat) (x : Int) :
    accumulate (wrapInt64 x) bs =
      wrapInt64 (bs.foldl (fun (t : Int) (b : Nat) => 10 * t + ((b : Int) - 48) % 256) x) := by
  induction bs generalizing x with
  | nil => simp [accumulate]
  | cons b bs ih =>
    have h := ih (x * 10 + (byteSubZero b : Int))
    simp only [accumulate, List.foldl_cons] at h ⊢
    rw [wrapInt64_step, h, byteSubZero_eq, Int.mul_comm x 10]

theorem accumulate_eq_wrap_plainFold (bs : List Nat) :
    accumulate 0 bs = wrapInt64 (plainFold bs) := by
  have h := accumulate_wrap bs 0
  have h0 : wrapInt64 0 = 0 := by decide
  rw [h0] at h
  exact h

theorem foldl_digits_bound (ds : List Nat) (t : Int) (ht : 0 ≤ t)
    (hds : ∀ d ∈ ds, 48 ≤ d ∧ d ≤ 57) :
    0 ≤ ds.foldl (fun (t : Int) (d : Nat) => 10 * t + ((d : Int) - 48)) t ∧
    ds.foldl (fun (t : Int) (d : Nat) => 10 * t + ((d : Int) - 48)) t + 1 ≤ (t + 1) * 10 ^ ds.length := by
  induction ds generalizing t with
  | nil => simp [ht]
  | cons d ds ih =>
    obtain ⟨h1, h2⟩ := hds d (by simp)
    have hd1 : (48 : Int) ≤ d := by exact_mod_cast h1
    have hd2 : (d : Int) ≤ 57 := by exact_mod_cast h2
    have := ih (10 * t + ((d : Int) - 48)) (by omega) (fun x hx => hds x (by simp [hx]))
    refine ⟨this.1, le_trans this.2 ?_⟩
    have hp : (0 : Int) ≤ 10 ^ ds.length := by positivity
    simp only [List.length_cons, pow_succ]
    have : (10 * t + ((d : Int) - 48) + 1) * 10 ^ ds.length ≤ (10 * t + 10) * 10 ^ ds.length :=
      Int.mul_le_mul_of_nonneg_right (by omega) hp
    calc (10 * t + ((d : Int) - 48) + 1) * 10 ^ ds.length
        ≤ (10 * t + 10) * 10 ^ ds.length := this
      _ = (t + 1) * (10 ^ ds.length * 10) := by ring

theorem decimalValue_bound (ds : List Nat) (hds : ∀ d ∈ ds, 48 ≤ d ∧ d ≤ 57)
    (hn : ds.length ≤ 17) : 0 ≤ decimalValue ds ∧ decimalValue ds < 100000000000000000 := by
  have h := foldl_digits_bound ds 0 (le_refl 0) hds
  have hp : (10 : Int) ^ ds.length ≤ 10 ^ 17 := pow_le_pow_right₀ (by norm_num) hn
  have h17 : (10 : Int) ^ 17 = 100000000000000000 := by norm_num
  simp only [decimalValue]
  refine ⟨h.1, ?_⟩
  have := h.2
  simp only [Int.zero_add, Int.one_mul] at this
  omega

theorem plainFold_digits (ds : List Nat) (f : Nat) (hds : ∀ d ∈ ds, 48 ≤ d ∧ d ≤ 57)
    (hf : 48 ≤ f ∧ f ≤ 57) :
    plainFold (ds ++ [f]) = 10 * decimalValue ds + ((f : Int) - 48) := by
  have hfold : ∀ (l : List Nat) (t : Int), (∀ d ∈ l, 48 ≤ d ∧ d ≤ 57) →
      l.foldl (fun (t : Int) (b : Nat) => 10 * t + ((b : Int) - 48) % 256) t =
        l.foldl (fun (t : Int) (d : Nat) => 10 * t + ((d : Int) - 48)) t := by
    intro l
    induction l with
    | nil => intro t _; rfl
    | cons d l ih =>
      intro t hl
      obtain ⟨h1, h2⟩ := hl d (by simp)
      have hd : ((d : Int) - 48) % 256 = (d : Int) - 48 := by omega
      simp only [List.foldl_cons, hd]
      exact ih _ (fun x hx => hl x (by simp [hx]))
  have hf' : ((f : Int) - 48) % 256 = (f : Int) - 48 := by omega
  simp only [plainFold, List.foldl_append, List.foldl_cons, List.foldl_nil, hf',
    hfold ds 0 hds, decimalValue]


/-! ## The value of a line -/

theorem workerStep_SEMI (s : WorkerState) :
    workerStep s SEMI = { s with cityLen := 64, isNegative := false } := by
  simp [workerStep]

theorem workerStep_DOT (s : WorkerState) : workerStep s DOT = s := by
  simp [workerStep, DOT, SEMI, NL]

theorem workerStep_MINUS (s : WorkerState) :
    workerStep s MINUS = { s with isNegative := true } := by
  simp [workerStep, MINUS, SEMI, NL, DOT]

theorem digit_not_special (d : Nat) (h : 48 ≤ d ∧ d ≤ 57) :
    d ≠ SEMI ∧ d ≠ NL ∧ d ≠ DOT ∧ d ≠ MINUS := by
  simp only [SEMI, NL, DOT, MINUS]
  omega

theorem accumulate_append (t : Int) (as bs : List Nat) :
    accumulate (accumulate t as) bs = accumulate t (as ++ bs) := by
  simp [accumulate, List.foldl_append]

theorem foldl_workerStep_value (s : WorkerState) (neg : Bool) (ds : List Nat) (f : Nat)
    (hc : 44 ≤ s.cityLen) (hs : s.isNegative = false)
    (hds : ∀ d ∈ ds, 48 ≤ d ∧ d ≤ 57) (hf : 48 ≤ f ∧ f ≤ 57) :
    ((if neg then [MINUS] else []) ++ ds ++ [DOT, f]).foldl workerStep s =
      { s with temp := accumulate s.temp (ds ++ [f]), isNegative := neg } := by
  have hsign : (if neg then [MINUS] else []).foldl workerStep s =
      { s with isNegative := neg } := by
    cases neg
    · simp only [Bool.false_eq_true, if_false, List.foldl_nil]
      rw [← hs]
    · simp only [if_true, List.foldl_cons, List.foldl_nil, workerStep_MINUS]
  have h0 := foldl_workerStep_accumulate ds { s with isNegative := neg } hc
    (fun d hd => digit_not_special d (hds d hd))
  rw [List.foldl_append, List.foldl_append, hsign, h0]
  simp only [List.foldl_cons, List.foldl_nil, workerStep_DOT]
  have h1 := foldl_workerStep_accumulate [f]
    { s with temp := accumulate s.temp ds, isNegative := neg } hc
    (fun d hd => digit_not_special d (by
      have : d = f := by simpa using hd
      rw [this]; exact hf))
  simp only [List.foldl_cons, List.foldl_nil] at h1
  rw [h1]
  simp only [accumulate_append]

theorem commit_sum (s : WorkerState) :
    ((workerStep s NL).cityTemps.get s.city).map Temps.sum =
      some (match s.cityTemps.get s.city with
        | none => committedValue s
        | some ct => wrapInt64 (ct.sum + committedValue s)) := by
  rw [workerStep_NL, commitLine_get, if_pos rfl]
  cases s.cityTemps.get s.city <;> rfl

theorem parseLine_name_value (T : Table) (name : List Nat) (neg : Bool) (ds : List Nat)
    (f : Nat) (hname : name.length ≤ 44) (hnb : ∀ b ∈ name, b ≠ SEMI ∧ b ≠ NL)
    (hds : ∀ d ∈ ds, 48 ≤ d ∧ d ≤ 57) (hf : 48 ≤ f ∧ f ≤ 57) :
    parseLine T (name ++ SEMI :: ((if neg then [MINUS] else []) ++ ds ++ [DOT, f])) =
      { cityTemps := T, city := (parseLine T name).city, cityLen := 64,
        temp := accumulate 0 (ds ++ [f]), isNegative := neg } := by
  have h1 := foldl_workerStep_name_any name (resetState T)
    (by simpa [resetState] using hname) hnb
  have h2 := foldl_workerStep_value
    { (name.foldl workerStep (resetState T)) with cityLen := 64, isNegative := false }
    neg ds f (by simp) rfl hds hf
  rw [parseLine, List.foldl_append, List.foldl_cons, workerStep_SEMI, h2]
  simp only [parseLine, h1.1, h1.2.1]
  simp only [resetState]


/-- C16: for a line `<name>;<value>` read from the reset per-line state, the
name of at most 44 bytes other than `;` and the line break (`-` and `.`
allowed), the value an optional `-`, at most 17 digits `ds`, `.` and one digit
`f`, the value committed at the line break is `10 * D + f`, negated when the
sign is present, `D` being the decimal number written by `ds`; it is the sum of
a new entry and is added to the sum of an existing one. -/
theorem value_parsing (T : Table) (name : List Nat) (neg : Bool) (ds : List Nat) (f : Nat)
    (hname : name.length ≤ 44) (hnb : ∀ b ∈ name, b ≠ SEMI ∧ b ≠ NL)
    (hds : ∀ d ∈ ds, 48 ≤ d ∧ d ≤ 57) (hn : ds.length ≤ 17) (hf : 48 ≤ f ∧ f ≤ 57) :
    committedValue (parseLine T (lineOf name neg ds f)) =
      (if neg then -(10 * decimalValue ds + ((f : Int) - 48))
       else 10 * decimalValue ds + ((f : Int) - 48)) ∧
    ((workerStep (parseLine T (lineOf name neg ds f)) NL).cityTemps.get
        (parseLine T (lineOf name neg ds f)).city).map Temps.sum =
      some (match T.get (parseLine T (lineOf name neg ds f)).city with
        | none =>
          (if neg then -(10 * decimalValue ds + ((f : Int) - 48))
           else 10 * decimalValue ds + ((f : Int) - 48))
        | some ct =>
          wrapInt64 (ct.sum +
            (if neg then -(10 * decimalValue ds + ((f : Int) - 48))
             else 10 * decimalValue ds + ((f : Int) - 48)))) := by
  have hstate := parseLine_name_value T name neg ds f hname hnb hds hf
  have hD := decimalValue_bound ds hds hn
  have hacc : accumulate 0 (ds ++ [f]) = 10 * decimalValue ds + ((f : Int) - 48) := by
    rw [accumulate_eq_wrap_plainFold, plainFold_digits ds f hds hf]
    exact wrapInt64_of_range _ (by omega) (by omega)
  have hv : committedValue (parseLine T (lineOf name neg ds f)) =
      (if neg then -(10 * decimalValue ds + ((f : Int) - 48))
       else 10 * decimalValue ds + ((f : Int) - 48)) := by
    rw [lineOf, hstate]
    simp only [committedValue, hacc]
    cases neg
    · simp
    · simp only [if_true]
      exact wrapInt64_of_range _ (by omega) (by omega)
  refine ⟨hv, ?_⟩
  rw [commit_sum, hv]
  have hT : (parseLine T (lineOf name neg ds f)).cityTemps = T := by
    rw [lineOf, hstate]
  rw [hT]

/-- C16 at the line `Port-au-Prince;-12.3`, read with an empty table. -/
theorem value_parsing_witness :
    ((ascii "Port-au-Prince").length ≤ 44 ∧
     (∀ b ∈ ascii "Port-au-Prince", b ≠ SEMI ∧ b ≠ NL) ∧
     (∀ d ∈ ascii "12", 48 ≤ d ∧ d ≤ 57) ∧ (ascii "12").length ≤ 17 ∧ (48 ≤ 51 ∧ 51 ≤ 57)) ∧
    lineOf (ascii "Port-au-Prince") true (ascii "12") 51 = ascii "Port-au-Prince;-12.3" ∧
    committedValue (parseLine [] (lineOf (ascii "Port-au-Prince") true (ascii "12") 51)) =
      (if true then -(10 * decimalValue (ascii "12") + (((51 : Nat) : Int) - 48))
       else 10 * decimalValue (ascii "12") + (((51 : Nat) : Int) - 48)) :=
  ⟨⟨by decide, by decide, by decide, by decide, by decide⟩, by decide,
    (value_parsing [] (ascii "Port-au-Prince") true (ascii "12") 51
      (by decide) (by decide) (by decide) (by decide) (by decide)).1⟩


/-! ## The key of a line -/

theorem parseLine_short_name (T : Table) (name : List Nat) (neg : Bool) (ds : List Nat)
    (f : Nat) (hname : name.length ≤ 44)
    (hnb : ∀ b ∈ name, b ≠ SEMI ∧ b ≠ NL ∧ b ≠ DOT ∧ b ≠ MINUS)
    (hds : ∀ d ∈ ds, 48 ≤ d ∧ d ≤ 57) (hf : 48 ≤ f ∧ f ≤ 57) :
    (parseLine T (lineOf name neg ds f)).city = padName name := by
  have h1 := parseLine_name_value T name neg ds f hname
    (fun b hb => ⟨(hnb b hb).1, (hnb b hb).2.1⟩) hds hf
  have h2 := foldl_workerStep_name name (resetState T) (by simpa [resetState] using hname) hnb
  rw [lineOf, h1]
  simp only [parseLine, h2]
  simp only [resetState]
  exact writeName_zero name (by omega)

theorem parseLine_long_name (T : Table) (name : List Nat) (neg : Bool) (ds : List Nat)
    (f : Nat) (hname : 44 < name.length)
    (hnb : ∀ b ∈ name, b ≠ SEMI ∧ b ≠ NL ∧ b ≠ DOT ∧ b ≠ MINUS)
    (hds : ∀ d ∈ ds, 48 ≤ d ∧ d ≤ 57) (hf : 48 ≤ f ∧ f ≤ 57) :
    parseLine T (lineOf name neg ds f) =
      { cityTemps := T, city := padName (name.take 44), cityLen := 64,
        temp := accumulate 0 (name.drop 44 ++ (ds ++ [f])), isNegative := neg } := by
  have hlen : (name.take 44).length = 44 := by
    rw [List.length_take]; omega
  have h1 := foldl_workerStep_name (name.take 44) (resetState T)
    (by simp only [resetState, hlen]; omega)
    (fun b hb => hnb b (List.mem_of_mem_take hb))
  simp only [resetState, hlen, Nat.zero_add] at h1
  have h2 := foldl_workerStep_accumulate (name.drop 44)
    { cityTemps := T, city := writeName CityName.zero 0 (name.take 44), cityLen := 44,
      temp := 0, isNegative := false }
    (by simp)
    (fun b hb => hnb b (List.mem_of_mem_drop hb))
  have h3 := foldl_workerStep_value
    { cityTemps := T, city := writeName CityName.zero 0 (name.take 44), cityLen := 64,
      temp := accumulate 0 (name.drop 44), isNegative := false }
    neg ds f (by simp) rfl hds hf
  have hsplit : name = name.take 44 ++ name.drop 44 := (List.take_append_drop 44 name).symm
  rw [lineOf, parseLine]
  conv_lhs => rw [hsplit]
  simp only [resetState]
  rw [List.foldl_append, List.foldl_append, List.foldl_cons, h1, h2, workerStep_SEMI]
  simp only [] at h3 ⊢
  rw [h3]
  simp only [accumulate_append, writeName_zero (name.take 44) (by omega)]


theorem padName_injective_aux (a b : List Nat) (m n : Nat) (ha : 0 ∉ a) (hb : 0 ∉ b)
    (h : a ++ List.replicate m 0 = b ++ List.replicate n 0) : a = b := by
  induction a generalizing b with
  | nil =>
    cases b with
    | nil => rfl
    | cons y ys =>
      exfalso
      have hy : y ∈ List.replicate m 0 := by
        rw [List.nil_append] at h
        rw [h]
        simp
      have : y = 0 := (List.mem_replicate.mp hy).2
      exact hb (by simp [this])
  | cons x xs ih =>
    cases b with
    | nil =>
      exfalso
      have hx : x ∈ List.replicate n 0 := by
        rw [List.nil_append] at h
        rw [← h]
        simp
      have : x = 0 := (List.mem_replicate.mp hx).2
      exact ha (by simp [this])
    | cons y ys =>
      simp only [List.cons_append, List.cons.injEq] at h
      have := ih ys (fun e => ha (by simp [e])) (fun e => hb (by simp [e])) h.2
      rw [h.1, this]


/-- The count of the committed key after a line break: 1 for a new key, one
more (in `int64`) for a key the table holds. -/
theorem commit_count (s : WorkerState) :
    ((workerStep s NL).cityTemps.get s.city).map Temps.count =
      some (match s.cityTemps.get s.city with
        | none => 1
        | some ct => wrapInt64 (ct.count + 1)) := by
  rw [workerStep_NL, commitLine_get, if_pos rfl]
  cases s.cityTemps.get s.city <;> rfl

/-- A line break leaves the entries of the other keys as they were. -/
theorem commit_frame (s : WorkerState) (k : CityName) (hk : k ≠ s.city) :
    (workerStep s NL).cityTemps.get k = s.cityTemps.get k := by
  rw [workerStep_NL, commitLine_get, if_neg (fun e => hk e.symm)]

/-- C17, the claim as stated, fails: for a name of 44 bytes `a` followed by 20
bytes `9` and the value `1.0`, the fold in unbounded integers gives
9999999999999999999910 and the value committed is 1864712049423024038, the sum
of the entry the worker stores for that line. -/
theorem long_name_value_wraps :
    44 < (List.replicate 44 97 ++ List.replicate 20 57).length ∧
    plainFold ((List.replicate 44 97 ++ List.replicate 20 57).drop 44 ++ ascii "1" ++ [48]) =
      9999999999999999999910 ∧
    committedValue (parseLine [] (lineOf (List.replicate 44 97 ++ List.replicate 20 57) false
      (ascii "1") 48)) = 1864712049423024038 ∧
    committedValue (parseLine [] (lineOf (List.replicate 44 97 ++ List.replicate 20 57) false
      (ascii "1") 48)) ≠
      plainFold ((List.replicate 44 97 ++ List.replicate 20 57).drop 44 ++ ascii "1" ++ [48]) ∧
    worker [lineOf (List.replicate 44 97 ++ List.replicate 20 57) false (ascii "1") 48 ++ [NL]] =
      [(padName (List.replicate 44 97),
        ⟨1864712049423024038, 1, 1864712049423024038, 1864712049423024038⟩)] := by
  decide

/-- C17, amended: for a line whose name has more than 44 bytes, none of them
`;`, the line break, `.` or `-`, read from the reset per-line state, the key at
the line break is the first 44 name bytes followed by zero bytes up to 64, and
the value committed is the fold `t -> 10*t + ((b - 48) mod 256)` from 0 over the
name bytes past the 44th followed by the digit bytes of the value, negated when
the value has a sign, reduced to 64-bit two's complement: after the line break
the entry of that key has this value as its sum when the key was absent and has
it added to its sum otherwise, its count is 1 or one more than before, and the
entries of the other keys are unchanged. -/
theorem name_overflow (T : Table) (name : List Nat) (neg : Bool) (ds : List Nat) (f : Nat)
    (hname : 44 < name.length)
    (hnb : ∀ b ∈ name, b ≠ SEMI ∧ b ≠ NL ∧ b ≠ DOT ∧ b ≠ MINUS)
    (hds : ∀ d ∈ ds, 48 ≤ d ∧ d ≤ 57) (hf : 48 ≤ f ∧ f ≤ 57) :
    (parseLine T (lineOf name neg ds f)).city = padName (name.take 44) ∧
    committedValue (parseLine T (lineOf name neg ds f)) =
      (if neg then wrapInt64 (-plainFold (name.drop 44 ++ (ds ++ [f])))
       else wrapInt64 (plainFold (name.drop 44 ++ (ds ++ [f])))) ∧
    ((workerStep (parseLine T (lineOf name neg ds f)) NL).cityTemps.get
        (padName (name.take 44))).map Temps.sum =
      some (match T.get (padName (name.take 44)) with
        | none =>
          (if neg then wrapInt64 (-plainFold (name.drop 44 ++ (ds ++ [f])))
           else wrapInt64 (plainFold (name.drop 44 ++ (ds ++ [f]))))
        | some ct =>
          wrapInt64 (ct.sum +
            (if neg then wrapInt64 (-plainFold (name.drop 44 ++ (ds ++ [f])))
             else wrapInt64 (plainFold (name.drop 44 ++ (ds ++ [f])))))) ∧
    ((workerStep (parseLine T (lineOf name neg ds f)) NL).cityTemps.get
        (padName (name.take 44))).map Temps.count =
      some (match T.get (padName (name.take 44)) with
        | none => 1
        | some ct => wrapInt64 (ct.count + 1)) ∧
    (∀ k, k ≠ padName (name.take 44) →
      (workerStep (parseLine T (lineOf name neg ds f)) NL).cityTemps.get k = T.get k) := by
  have hstate := parseLine_long_name T name neg ds f hname hnb hds hf
  have hcity : (parseLine T (lineOf name neg ds f)).city = padName (name.take 44) := by
    rw [hstate]
  have hT : (parseLine T (lineOf name neg ds f)).cityTemps = T := by
    rw [hstate]
  have hv : committedValue (parseLine T (lineOf name neg ds f)) =
      (if neg then wrapInt64 (-plainFold (name.drop 44 ++ (ds ++ [f])))
       else wrapInt64 (plainFold (name.drop 44 ++ (ds ++ [f])))) := by
    rw [hstate]
    simp only [committedValue, accumulate_eq_wrap_plainFold, wrapInt64_neg]
  have hsum := commit_sum (parseLine T (lineOf name neg ds f))
  have hcount := commit_count (parseLine T (lineOf name neg ds f))
  rw [hcity, hv, hT] at hsum
  rw [hcity, hT] at hcount
  refine ⟨hcity, hv, hsum, hcount, ?_⟩
  intro k hk
  have hframe := commit_frame (parseLine T (lineOf name neg ds f)) k (by rw [hcity]; exact hk)
  rw [hT] at hframe
  exact hframe

/-- C17, amended, at the name of 44 bytes `a` followed by 20 bytes `9` and the
value `-1.0`, read with an empty table: the entry stored has the sum
-1864712049423024038. -/
theorem name_overflow_witness :
    (44 < (List.replicate 44 97 ++ List.replicate 20 57).length ∧
     (∀ b ∈ List.replicate 44 97 ++ List.replicate 20 57,
        b ≠ SEMI ∧ b ≠ NL ∧ b ≠ DOT ∧ b ≠ MINUS) ∧
     (∀ d ∈ ascii "1", 48 ≤ d ∧ d ≤ 57) ∧ (48 ≤ 48 ∧ 48 ≤ 57)) ∧
    ((workerStep (parseLine [] (lineOf (List.replicate 44 97 ++ List.replicate 20 57) true
        (ascii "1") 48)) NL).cityTemps.get
        (padName ((List.replicate 44 97 ++ List.replicate 20 57).take 44))).map Temps.sum =
      some (match Table.get [] (padName ((List.replicate 44 97 ++ List.replicate 20 57).take 44))
        with
        | none =>
          (if true then wrapInt64 (-plainFold
              ((List.replicate 44 97 ++ List.replicate 20 57).drop 44 ++ (ascii "1" ++ [48])))
           else wrapInt64 (plainFold
              ((List.replicate 44 97 ++ List.replicate 20 57).drop 44 ++ (ascii "1" ++ [48]))))
        | some ct =>
          wrapInt64 (ct.sum +
            (if true then wrapInt64 (-plainFold
                ((List.replicate 44 97 ++ List.replicate 20 57).drop 44 ++ (ascii "1" ++ [48])))
             else wrapInt64 (plainFold
                ((List.replicate 44 97 ++ List.replicate 20 57).drop 44 ++
                  (ascii "1" ++ [48])))))) ∧
    worker [lineOf (List.replicate 44 97 ++ List.replicate 20 57) true (ascii "1") 48 ++ [NL]] =
      [(padName (List.replicate 44 97),
        ⟨-1864712049423024038, 1, 1864712049423024038, 1864712049423024038⟩)] :=
  ⟨⟨by decide, by decide, by decide, by decide⟩,
    (name_overflow [] (List.replicate 44 97 ++ List.replicate 20 57) true (ascii "1") 48
      (by decide) (by decide) (by decide) (by decide)).2.2.1,
    by decide⟩

/-- C15: the line `A.B;1.0`, whose name has three bytes, none of them `;` or
the line break, is committed under the key of `AB`, not under `A.B` followed by
zero bytes; the unit `A.B;1.0\nAB;2.0\n`, with two different names, gives one
entry; and `Port-au-Prince;-12.3\n` is committed under `PortauPrince`. -/
theorem dotted_name_key :
    (ascii "A.B").length ≤ 44 ∧
    (∀ b ∈ ascii "A.B", b ≠ SEMI ∧ b ≠ NL) ∧
    (parseLine [] (lineOf (ascii "A.B") false (ascii "1") 48)).city = padName (ascii "AB") ∧
    (parseLine [] (lineOf (ascii "A.B") false (ascii "1") 48)).city ≠ padName (ascii "A.B") ∧
    worker [ascii "A.B;1.0\nAB;2.0\n"] = [(key "AB", ⟨30, 2, 10, 20⟩)] ∧
    worker [ascii "Port-au-Prince;-12.3\n"] = [(key "PortauPrince", ⟨-123, 1, 123, 123⟩)] := by
  decide

/-- For a line whose name has at most 44 bytes, none of them `;`, the line
break, `.` or `-`, read from the reset per-line state, the key at the line break
is the name bytes followed by zero bytes up to 64; after the line break the
count of that key is 1 or one more than before and the entries of the other keys
are unchanged; two such lines whose names hold no zero byte have the same key if
and only if their names are equal. -/
theorem short_name_key (T T' : Table) (name name' : List Nat) (neg neg' : Bool)
    (ds ds' : List Nat) (f f' : Nat)
    (hname : name.length ≤ 44) (hname' : name'.length ≤ 44)
    (hnb : ∀ b ∈ name, b ≠ SEMI ∧ b ≠ NL ∧ b ≠ DOT ∧ b ≠ MINUS)
    (hnb' : ∀ b ∈ name', b ≠ SEMI ∧ b ≠ NL ∧ b ≠ DOT ∧ b ≠ MINUS)
    (hds : ∀ d ∈ ds, 48 ≤ d ∧ d ≤ 57) (hds' : ∀ d ∈ ds', 48 ≤ d ∧ d ≤ 57)
    (hf : 48 ≤ f ∧ f ≤ 57) (hf' : 48 ≤ f' ∧ f' ≤ 57) :
    (parseLine T (lineOf name neg ds f)).city = padName name ∧
    ((workerStep (parseLine T (lineOf name neg ds f)) NL).cityTemps.get
        (padName name)).map Temps.count =
      some (match T.get (padName name) with
        | none => 1
        | some ct => wrapInt64 (ct.count + 1)) ∧
    (∀ k, k ≠ padName name →
      (workerStep (parseLine T (lineOf name neg ds f)) NL).cityTemps.get k = T.get k) ∧
    (0 ∉ name → 0 ∉ name' →
      ((parseLine T (lineOf name neg ds f)).city =
          (parseLine T' (lineOf name' neg' ds' f')).city ↔ name = name')) := by
  have h1 := parseLine_short_name T name neg ds f hname hnb hds hf
  have h2 := parseLine_short_name T' name' neg' ds' f' hname' hnb' hds' hf'
  have hT : (parseLine T (lineOf name neg ds f)).cityTemps = T := by
    have := parseLine_name_value T name neg ds f hname
      (fun b hb => ⟨(hnb b hb).1, (hnb b hb).2.1⟩) hds hf
    rw [lineOf, this]
  have hcount := commit_count (parseLine T (lineOf name neg ds f))
  rw [h1, hT] at hcount
  refine ⟨h1, hcount, ?_, ?_⟩
  · intro k hk
    have hframe := commit_frame (parseLine T (lineOf name neg ds f)) k (by rw [h1]; exact hk)
    rw [hT] at hframe
    exact hframe
  · intro hz hz'
    rw [h1, h2]
    constructor
    · intro h
      exact padName_injective_aux name name' _ _ hz hz' h
    · intro h
      rw [h]

/-- The key of a short name, at the lines `Oslo;1.5` and `Rome;-2.5`. -/
theorem short_name_key_witness :
    ((ascii "Oslo").length ≤ 44 ∧ (ascii "Rome").length ≤ 44 ∧
     (∀ b ∈ ascii "Oslo", b ≠ SEMI ∧ b ≠ NL ∧ b ≠ DOT ∧ b ≠ MINUS) ∧
     (∀ b ∈ ascii "Rome", b ≠ SEMI ∧ b ≠ NL ∧ b ≠ DOT ∧ b ≠ MINUS) ∧
     (∀ d ∈ ascii "1", 48 ≤ d ∧ d ≤ 57) ∧ (∀ d ∈ ascii "2", 48 ≤ d ∧ d ≤ 57) ∧
     (48 ≤ 53 ∧ 53 ≤ 57)) ∧
    (parseLine [] (lineOf (ascii "Oslo") false (ascii "1") 53)).city = padName (ascii "Oslo") :=
  ⟨⟨by decide, by decide, by decide, by decide, by decide, by decide, by decide⟩,
    (short_name_key [] [] (ascii "Oslo") (ascii "Rome") false true (ascii "1") (ascii "2") 53 53
      (by decide) (by decide) (by decide) (by decide) (by decide) (by decide) (by decide)
      (by decide)).1⟩


/-! ## The order of the report -/

theorem bytesCompare_lt_iff (a b : List Nat) :
    bytesCompare a b < 0 ↔ List.Lex (· < ·) a b := by
  induction a generalizing b with
  | nil =>
    cases b with
    | nil => simp [bytesCompare]
    | cons y ys => simp [bytesCompare, List.Lex.nil]
  | cons x xs ih =>
    cases b with
    | nil => simp [bytesCompare]
    | cons y ys =>
      simp only [bytesCompare]
      by_cases hxy : x < y
      · simp only [if_pos hxy]
        exact ⟨fun _ => List.Lex.rel hxy, fun _ => by omega⟩
      · by_cases hyx : y < x
        · simp only [if_neg hxy, if_pos hyx]
          constructor
          · intro h; omega
          · intro h
            cases h with
            | cons h' => exact absurd hyx (Nat.lt_irrefl _)
            | rel h' => exact absurd h' hxy
        · have hEq : x = y := by omega
          subst hEq
          simp only [if_neg hxy]
          rw [ih ys]
          exact (List.Lex.cons_iff).symm

theorem less_eq_true_iff (a b : CityName) : less a b = true ↔ List.Lex (· < ·) a b := by
  simp [less, bytesCompare_lt_iff]

theorem less_eq_false_iff (a b : CityName) : less a b = false ↔ ¬ List.Lex (· < ·) a b := by
  rw [← less_eq_true_iff]
  simp

theorem Table.mem_keys_put (m : Table) (k : CityName) (v : Temps) (x : CityName) :
    x ∈ (m.put k v).map Prod.fst ↔ x = k ∨ x ∈ m.map Prod.fst := by
  have h1 := Table.get_eq_none_iff (m.put k v) x
  have h2 := Table.get_eq_none_iff m x
  rw [Table.get_put] at h1
  by_cases hk : k = x
  · rw [if_pos hk] at h1
    simp only [reduceCtorEq, false_iff, not_not] at h1
    exact ⟨fun _ => Or.inl hk.symm, fun _ => h1⟩
  · rw [if_neg hk] at h1
    have : ¬ x = k := fun e => hk e.symm
    simp only [this, false_or]
    exact not_iff_not.mp (h1.symm.trans h2)

theorem Table.nodup_keys_put (m : Table) (k : CityName) (v : Temps)
    (h : (m.map Prod.fst).Nodup) : ((m.put k v).map Prod.fst).Nodup := by
  induction m with
  | nil => simp [Table.put]
  | cons p rest ih =>
    obtain ⟨a, w⟩ := p
    simp only [List.map_cons, List.nodup_cons] at h
    by_cases hak : a = k
    · simp only [Table.put, if_pos hak, List.map_cons, List.nodup_cons]
      exact h
    · simp only [Table.put, if_neg hak, List.map_cons, List.nodup_cons]
      refine ⟨?_, ih h.2⟩
      rw [Table.mem_keys_put]
      intro hmem
      rcases hmem with hmem | hmem
      · exact hak hmem
      · exact h.1 hmem

theorem mergeResults_nodup_keys (results : List Table) :
    ((mergeResults results).map Prod.fst).Nodup := by
  rw [mergeResults_eq_foldl_flatten]
  have : ∀ (es : List (CityName × Temps)) (m : Table), (m.map Prod.fst).Nodup →
      ((es.foldl mergeEntry m).map Prod.fst).Nodup := by
    intro es
    induction es with
    | nil => intro m hm; exact hm
    | cons e es ih =>
      intro m hm
      rw [List.foldl_cons]
      exact ih _ (Table.nodup_keys_put _ _ _ hm)
  exact this _ [] (by simp)


theorem lex_trichotomy (a b : List Nat) :
    List.Lex (· < ·) a b ∨ a = b ∨ List.Lex (· < ·) b a :=
  @lt_trichotomy (List Nat) _ a b

theorem lex_trans (a b c : List Nat) (h1 : List.Lex (· < ·) a b)
    (h2 : List.Lex (· < ·) b c) : List.Lex (· < ·) a c :=
  @lt_trans (List Nat) _ a b c h1 h2

theorem lex_asymm (a b : List Nat) (h1 : List.Lex (· < ·) a b)
    (h2 : List.Lex (· < ·) b a) : False :=
  @lt_asymm (List Nat) _ a b h1 h2

theorem insertionSortLess_perm (l : List CityName) : (insertionSortLess l).Perm l :=
  List.perm_insertionSort _ l

theorem insertionSortLess_sorted (l : List CityName) :
    (insertionSortLess l).Pairwise (fun a b => less b a = false) := by
  have htotal : IsTotal CityName (fun a b => less b a = false) := by
    constructor
    intro a b
    simp only [less_eq_false_iff]
    by_cases h : List.Lex (· < ·) b a
    · exact Or.inr (fun h' => lex_asymm b a h h')
    · exact Or.inl h
  have htrans : IsTrans CityName (fun a b => less b a = false) := by
    constructor
    intro a b c hab hbc
    simp only [less_eq_false_iff] at hab hbc ⊢
    intro hca
    rcases lex_trichotomy a b with h | h | h
    · exact hbc (lex_trans c a b hca h)
    · rw [h] at hca; exact hbc hca
    · exact hab h
  exact @List.sorted_insertionSort _ (fun a b => less b a = false) _ htotal htrans l

/-- C11: whatever routine stands for `sort.Slice`, as long as it returns a
permutation of its input in which no key is `less` than an earlier one, the keys
of the report of every final table built by the merge loop are a permutation of
the keys of the table, strictly ascending in the lexicographic order of their
bytes, with no key twice. -/
theorem report_keys_ascending (sortSlice : List CityName → List CityName)
    (hperm : ∀ l, (sortSlice l).Perm l)
    (hsorted : ∀ l, (sortSlice l).Pairwise (fun a b => less b a = false))
    (results : List Table) :
    (sortSlice (allCities (mergeResults results))).Perm (allCities (mergeResults results)) ∧
    (sortSlice (allCities (mergeResults results))).Pairwise
      (fun a b => List.Lex (· < ·) a b) ∧
    (sortSlice (allCities (mergeResults results))).Nodup := by
  have hnd : (sortSlice (allCities (mergeResults results))).Nodup :=
    (hperm _).nodup_iff.mpr (mergeResults_nodup_keys results)
  refine ⟨hperm _, ?_, hnd⟩
  have hboth := (hsorted (allCities (mergeResults results))).and hnd
  refine hboth.imp ?_
  intro a b hab
  obtain ⟨h1, h2⟩ := hab
  rw [less_eq_false_iff] at h1
  rcases lex_trichotomy a b with h | h | h
  · exact h
  · exact absurd h h2
  · exact absurd h h1

/-- C11 with the insertion sort by `less` and the worker tables `Oslo, Rome`
and `Bern, Oslo`: the report lists `Bern`, `Oslo`, `Rome`. -/
theorem report_keys_ascending_witness :
    ((∀ l, (insertionSortLess l).Perm l) ∧
     (∀ l, (insertionSortLess l).Pairwise (fun a b => less b a = false))) ∧
    insertionSortLess (allCities (mergeResults
      [[(key "Oslo", ⟨15, 1, 15, 15⟩), (key "Rome", ⟨210, 1, 210, 210⟩)],
       [(key "Bern", ⟨-20, 1, -20, -20⟩), (key "Oslo", ⟨30, 1, 30, 30⟩)]])) =
      [key "Bern", key "Oslo", key "Rome"] ∧
    (insertionSortLess (allCities (mergeResults
      [[(key "Oslo", ⟨15, 1, 15, 15⟩), (key "Rome", ⟨210, 1, 210, 210⟩)],
       [(key "Bern", ⟨-20, 1, -20, -20⟩), (key "Oslo", ⟨30, 1, 30, 30⟩)]]))).Pairwise
      (fun a b => List.Lex (· < ·) a b) :=
  ⟨⟨insertionSortLess_perm, insertionSortLess_sorted⟩, by decide,
    (report_keys_ascending insertionSortLess insertionSortLess_perm insertionSortLess_sorted
      [[(key "Oslo", ⟨15, 1, 15, 15⟩), (key "Rome", ⟨210, 1, 210, 210⟩)],
       [(key "Bern", ⟨-20, 1, -20, -20⟩), (key "Oslo", ⟨30, 1, 30, 30⟩)]]).2.1⟩




/-! ## A unit that shares its backing array with the buffer -/

theorem processChunkMem_no_newline (grow : Nat → Nat → Nat) (h : Heap) (chunk : List Nat)
    (leftover : Slice) (hf : bytesIndex chunk NL = -1) :
    processChunkMem grow h chunk leftover =
      { heap := (appendSlice grow h leftover chunk).1,
        validPart := Slice.empty,
        newLeftover := (appendSlice grow h leftover chunk).2 } := by
  have hl : bytesLastIndex chunk NL = -1 := (bytesIndex_le_bytesLastIndex chunk NL).2.1 hf
  simp [processChunkMem, hf, hl]

theorem processChunkMem_one_newline (grow : Nat → Nat → Nat) (h : Heap) (chunk : List Nat)
    (leftover : Slice) (hf : bytesIndex chunk NL ≠ -1)
    (hfl : bytesIndex chunk NL = bytesLastIndex chunk NL) :
    processChunkMem grow h chunk leftover =
      { heap := (appendSlice grow h leftover (slice chunk 0 (bytesIndex chunk NL + 1))).1,
        validPart := (appendSlice grow h leftover (slice chunk 0 (bytesIndex chunk NL + 1))).2,
        newLeftover := { arr := leftover.arr, len := 0, cap := leftover.cap } } := by
  have hcond : ¬ (bytesLastIndex chunk NL ≠ -1 ∧
      bytesIndex chunk NL ≠ bytesLastIndex chunk NL) := fun e => e.2 hfl
  simp only [processChunkMem, if_neg hcond, if_pos hf]

theorem appendSlice_in_place (grow : Nat → Nat → Nat) (h : Heap) (s : Slice) (xs : List Nat)
    (hfit : s.len + xs.length ≤ s.cap) :
    appendSlice grow h s xs =
      (h.set s.arr (writeName (h.getD s.arr []) s.len xs),
       { arr := s.arr, len := s.len + xs.length, cap := s.cap }) := by
  simp only [appendSlice, if_pos hfit]

/-- When the chunk has exactly one line break and the bytes up to it fit in the
capacity left in the leftover, the `validPart` and the `newLeftover` returned by
`processChunk` have the same backing array. -/
theorem processChunkMem_shares (grow : Nat → Nat → Nat) (h : Heap) (chunk : List Nat)
    (leftover : Slice) (hf : bytesIndex chunk NL ≠ -1)
    (hfl : bytesIndex chunk NL = bytesLastIndex chunk NL)
    (hfit : leftover.len + (slice chunk 0 (bytesIndex chunk NL + 1)).length ≤ leftover.cap) :
    (processChunkMem grow h chunk leftover).validPart =
      { arr := leftover.arr,
        len := leftover.len + (slice chunk 0 (bytesIndex chunk NL + 1)).length,
        cap := leftover.cap } ∧
    (processChunkMem grow h chunk leftover).newLeftover =
      { arr := leftover.arr, len := 0, cap := leftover.cap } ∧
    (0 < leftover.cap →
      sharesArray (processChunkMem grow h chunk leftover).validPart
        (processChunkMem grow h chunk leftover).newLeftover) := by
  rw [processChunkMem_one_newline grow h chunk leftover hf hfl,
    appendSlice_in_place grow h leftover _ hfit]
  refine ⟨rfl, rfl, ?_⟩
  intro hc
  exact ⟨hc, hc, rfl⟩


theorem supervisorMem_abc (grow : Nat → Nat → Nat) :
    supervisorMem grow [[97, 98, 99]] =
      { heap := [[97, 98, 99] ++ List.replicate (max 3 (grow 0 3) - 3) 0],
        sent := [],
        buffer := { arr := 0, len := 3, cap := max 3 (grow 0 3) } } := by
  have hf : bytesIndex [97, 98, 99] NL = -1 := by decide
  simp [supervisorMem, supStepMem, processChunkMem_no_newline grow _ _ _ hf, appendSlice,
    Slice.empty, Slice.bytes]

theorem supervisorMem_abc_d (grow : Nat → Nat → Nat) :
    (supervisorMem grow [[97, 98, 99], [100, 10]]).buffer =
      { arr := 0, len := 0, cap := max 3 (grow 0 3) } ∧
    ∃ a b c rest arrays, (supervisorMem grow [[97, 98, 99], [100, 10]]).heap =
      (a :: b :: c :: rest) :: arrays := by
  have h1 := supervisorMem_abc grow
  have hf : bytesIndex [100, 10] NL ≠ -1 := by decide
  have hfl : bytesIndex [100, 10] NL = bytesLastIndex [100, 10] NL := by decide
  have hstep : supervisorMem grow [[97, 98, 99], [100, 10]] =
      supStepMem grow (supervisorMem grow [[97, 98, 99]]) [100, 10] := by
    simp [supervisorMem]
  rw [hstep, h1]
  simp only [supStepMem, processChunkMem_one_newline grow _ _ _ hf hfl]
  refine ⟨trivial, ?_⟩
  have hsl : slice [100, 10] 0 (bytesIndex [100, 10] NL + 1) = [100, 10] := by decide
  rw [hsl]
  by_cases hfit : 3 + 2 ≤ max 3 (grow 0 3)
  · obtain ⟨m, hm⟩ : ∃ m, max 3 (grow 0 3) - 3 = m + 2 := ⟨max 3 (grow 0 3) - 5, by omega⟩
    simp only [appendSlice, List.length_cons, List.length_nil, Nat.zero_add, Nat.reduceAdd,
      if_pos hfit, hm]
    simp [writeName, List.replicate_succ]
  · simp only [appendSlice, List.length_cons, List.length_nil, Nat.zero_add, Nat.reduceAdd,
      if_neg hfit]
    simp


theorem supStepMem_reuse (grow : Nat → Nat → Nat) (sent : List Slice) (c x a b : Nat)
    (rest : List Nat) (arrays : Heap) (hc : 2 ≤ c) (hx : x ≠ NL) :
    supStepMem grow
        { heap := (a :: b :: rest) :: arrays, sent := sent,
          buffer := { arr := 0, len := 0, cap := c } } [x, NL] =
      { heap := (x :: NL :: rest) :: arrays,
        sent := sent ++ [{ arr := 0, len := 2, cap := c }],
        buffer := { arr := 0, len := 0, cap := c } } := by
  have hf : bytesIndex [x, NL] NL = 1 := by
    simp [bytesIndex, hx]
  have hl : bytesLastIndex [x, NL] NL = 1 := by
    simp [bytesLastIndex]
  have hne : bytesIndex [x, NL] NL ≠ -1 := by rw [hf]; decide
  have hsl : slice [x, NL] 0 (bytesIndex [x, NL] NL + 1) = [x, NL] := by
    rw [hf]; simp [slice]
  have hfit : (0 : Nat) + [x, NL].length ≤ c := by simpa using hc
  simp only [supStepMem, processChunkMem_one_newline grow _ _ _ hne (hf.trans hl.symm), hsl,
    appendSlice_in_place grow _ { arr := 0, len := 0, cap := c } [x, NL] hfit]
  simp [writeName]

/-- C13: whatever capacity the runtime gives to a new backing array, after the
raw chunks `abc`, `d\n`, `e\n` the unit sent last (`e\n`) and the buffer kept
by `lineSupervisor` have the same backing array, and the next raw chunk `f\n`
is written over the bytes of that unit, which then reads `f\n`. -/
theorem sent_unit_overwritten (grow : Nat → Nat → Nat) :
    (supervisorMem grow [[97, 98, 99], [100, 10], [101, 10]]).sent.getLast? =
      some { arr := 0, len := 2, cap := max 3 (grow 0 3) } ∧
    sharesArray { arr := 0, len := 2, cap := max 3 (grow 0 3) }
      (supervisorMem grow [[97, 98, 99], [100, 10], [101, 10]]).buffer ∧
    Slice.bytes (supervisorMem grow [[97, 98, 99], [100, 10], [101, 10]]).heap
      { arr := 0, len := 2, cap := max 3 (grow 0 3) } = [101, 10] ∧
    Slice.bytes (supervisorMem grow [[97, 98, 99], [100, 10], [101, 10], [102, 10]]).heap
      { arr := 0, len := 2, cap := max 3 (grow 0 3) } = [102, 10] := by
  obtain ⟨hbuf, a, b, c, rest, arrays, hheap⟩ := supervisorMem_abc_d grow
  have hst2 : supervisorMem grow [[97, 98, 99], [100, 10]] =
      { heap := (a :: b :: c :: rest) :: arrays,
        sent := (supervisorMem grow [[97, 98, 99], [100, 10]]).sent,
        buffer := { arr := 0, len := 0, cap := max 3 (grow 0 3) } } := by
    rw [← hbuf, ← hheap]
  have hc : 2 ≤ max 3 (grow 0 3) := by omega
  have h3 : supervisorMem grow [[97, 98, 99], [100, 10], [101, 10]] =
      supStepMem grow (supervisorMem grow [[97, 98, 99], [100, 10]]) [101, NL] := by
    simp [supervisorMem, NL]
  have h4 : supervisorMem grow [[97, 98, 99], [100, 10], [101, 10], [102, 10]] =
      supStepMem grow (supervisorMem grow [[97, 98, 99], [100, 10], [101, 10]]) [102, NL] := by
    simp [supervisorMem, NL]
  rw [hst2, supStepMem_reuse grow _ _ 101 a b _ _ hc (by decide)] at h3
  rw [h3, supStepMem_reuse grow _ _ 102 101 NL _ _ hc (by decide)] at h4
  rw [h3, h4]
  have hshare : sharesArray { arr := 0, len := 2, cap := max 3 (grow 0 3) }
      { arr := 0, len := 0, cap := max 3 (grow 0 3) } := by
    have hpos : 0 < max 3 (grow 0 3) := lt_of_lt_of_le (by decide) (le_max_left 3 _)
    exact ⟨hpos, hpos, rfl⟩
  refine ⟨by simp, hshare, ?_, ?_⟩
  · simp [Slice.bytes, NL]
  · simp [Slice.bytes, NL]

/-- The sharing of the backing array at the leftover of length 0 and capacity
3 and the chunk `e\n`. -/
theorem processChunkMem_shares_witness :
    (bytesIndex [101, 10] NL ≠ -1 ∧
     bytesIndex [101, 10] NL = bytesLastIndex [101, 10] NL ∧
     (0 : Nat) + (slice [101, 10] 0 (bytesIndex [101, 10] NL + 1)).length ≤ 3) ∧
    (processChunkMem (fun _ n => n) [[97, 98, 99]] [101, 10]
        { arr := 0, len := 0, cap := 3 }).validPart =
      { arr := 0, len := 0 + (slice [101, 10] 0 (bytesIndex [101, 10] NL + 1)).length,
        cap := 3 } :=
  ⟨⟨by decide, by decide, by decide⟩,
    (processChunkMem_shares (fun _ n => n) [[97, 98, 99]] [101, 10]
      { arr := 0, len := 0, cap := 3 } (by decide) (by decide) (by decide)).1⟩


/-! ## The slices show the bytes of the value model -/

theorem writeName_length (A : List Nat) (i : Nat) (xs : List Nat) :
    (writeName A i xs).length = A.length := by
  induction xs generalizing A i with
  | nil => rfl
  | cons b bs ih => simp [writeName, ih]

theorem take_succ_set (A : List Nat) (i b : Nat) (h : i < A.length) :
    (A.set i b).take (i + 1) = A.take i ++ [b] := by
  induction A generalizing i with
  | nil => simp at h
  | cons a A' ih =>
    cases i with
    | zero => simp
    | succ j =>
      simp only [List.length_cons] at h
      simp [ih j (by omega)]

theorem writeName_take (A : List Nat) (i : Nat) (xs : List Nat)
    (h : i + xs.length ≤ A.length) :
    (writeName A i xs).take (i + xs.length) = A.take i ++ xs := by
  induction xs generalizing A i with
  | nil => simp [writeName]
  | cons b bs ih =>
    simp only [List.length_cons] at h
    have h1 := ih (A.set i b) (i + 1) (by simp only [List.length_set]; omega)
    have h2 := take_succ_set A i b (by omega)
    simp only [writeName, List.length_cons]
    rw [show i + (bs.length + 1) = i + 1 + bs.length by omega, h1, h2]
    simp

theorem heap_getD_set (h : Heap) (i : Nat) (v : List Nat) (hi : i < h.length) :
    (h.set i v).getD i [] = v := by
  simp [List.getD_eq_getElem?_getD, List.getElem?_set_self hi]

theorem heap_getD_append_last (h : Heap) (B : List Nat) :
    (h ++ [B]).getD h.length [] = B := by
  simp [List.getD_eq_getElem?_getD]

theorem heap_getD_append_left (h : Heap) (B : List Nat) (i : Nat) (hi : i < h.length) :
    (h ++ [B]).getD i [] = h.getD i [] := by
  simp [List.getD_eq_getElem?_getD, List.getElem?_append_left hi]

theorem Slice.bytes_length (h : Heap) (s : Slice) (hw : s.wf h) :
    (s.bytes h).length = s.len := by
  obtain ⟨h1, h2⟩ := hw
  simp only [Slice.bytes, List.length_take]
  by_cases hc : 0 < s.cap
  · have := (h2 hc).2
    omega
  · omega

theorem appendSlice_spec (grow : Nat → Nat → Nat) (h : Heap) (s : Slice) (xs : List Nat)
    (hw : s.wf h) :
    (appendSlice grow h s xs).2.bytes (appendSlice grow h s xs).1 = s.bytes h ++ xs ∧
    (appendSlice grow h s xs).2.wf (appendSlice grow h s xs).1 ∧
    h.length ≤ (appendSlice grow h s xs).1.length := by
  have hlen := Slice.bytes_length h s hw
  obtain ⟨h1, h2⟩ := hw
  by_cases hfit : s.len + xs.length ≤ s.cap
  · simp only [appendSlice, if_pos hfit]
    by_cases hc : 0 < s.cap
    · obtain ⟨ha, hA⟩ := h2 hc
      refine ⟨?_, ⟨hfit, fun _ => ⟨by simpa using ha, ?_⟩⟩, by simp⟩
      · simp only [Slice.bytes, heap_getD_set h s.arr _ ha]
        exact writeName_take _ _ _ (by omega)
      · simp only [heap_getD_set h s.arr _ ha, writeName_length, hA]
    · have hx : xs = [] := by
        cases xs with
        | nil => rfl
        | cons x xs' => simp only [List.length_cons] at hfit; omega
      have hl0 : s.len = 0 := by omega
      subst hx
      refine ⟨?_, ⟨by simpa using h1, fun hc' => absurd hc' hc⟩, by simp⟩
      simp [Slice.bytes, hl0]
  · simp only [appendSlice, if_neg hfit]
    refine ⟨?_, ⟨le_max_left _ _, fun _ => ⟨by simp, ?_⟩⟩, by simp⟩
    · have hl : (List.take s.len (h.getD s.arr []) ++ xs).length = s.len + xs.length := by
        have := hlen
        simp only [Slice.bytes] at this
        rw [List.length_append, this]
      simp only [Slice.bytes, heap_getD_append_last]
      exact List.take_left' hl
    · simp only [heap_getD_append_last, List.length_append, List.length_replicate, hlen]
      have := le_max_left (s.len + xs.length) (grow s.cap (s.len + xs.length))
      omega


theorem appendSlice_length_frame (grow : Nat → Nat → Nat) (h : Heap) (s : Slice)
    (xs : List Nat) (i : Nat) (hi : i < h.length) :
    ((appendSlice grow h s xs).1.getD i []).length = (h.getD i []).length := by
  by_cases hfit : s.len + xs.length ≤ s.cap
  · simp only [appendSlice, if_pos hfit]
    by_cases hia : s.arr = i
    · subst hia
      rw [heap_getD_set h s.arr _ hi, writeName_length]
    · simp [List.getD_eq_getElem?_getD, List.getElem?_set_ne hia]
  · simp only [appendSlice, if_neg hfit]
    rw [heap_getD_append_left h _ i hi]

theorem appendSlice_empty_frame (grow : Nat → Nat → Nat) (h : Heap) (xs : List Nat)
    (i : Nat) (hi : i < h.length) :
    (appendSlice grow h Slice.empty xs).1.getD i [] = h.getD i [] := by
  cases xs with
  | nil =>
    simp only [appendSlice, Slice.empty, List.length_nil, Nat.add_zero, Nat.le_refl, if_true,
      writeName]
    by_cases hi0 : 0 = i
    · subst hi0
      rw [heap_getD_set h 0 _ hi]
    · simp [List.getD_eq_getElem?_getD, List.getElem?_set_ne hi0]
  | cons x xs' =>
    have hfit : ¬ (Slice.empty.len + (x :: xs').length ≤ Slice.empty.cap) := by
      simp [Slice.empty]
    simp only [appendSlice, if_neg hfit]
    rw [heap_getD_append_left h _ i hi]

theorem Slice.wf_empty (h : Heap) : Slice.empty.wf h := by
  simp [Slice.wf, Slice.empty]

theorem Slice.bytes_empty (h : Heap) : Slice.empty.bytes h = [] := by
  simp [Slice.bytes, Slice.empty]

/-- At the moment `processChunk` returns, its two result slices show in the heap
exactly the bytes that `processChunk` returns in the model by value, whatever
capacity the runtime gives to new arrays; and `newLeftover` fits the heap, so
the next call can start from it. -/
theorem processChunkMem_bytes (grow : Nat → Nat → Nat) (h : Heap) (chunk : List Nat)
    (leftover : Slice) (hw : leftover.wf h) :
    (processChunkMem grow h chunk leftover).validPart.bytes
        (processChunkMem grow h chunk leftover).heap =
      (processChunk chunk (leftover.bytes h)).1 ∧
    (processChunkMem grow h chunk leftover).newLeftover.bytes
        (processChunkMem grow h chunk leftover).heap =
      (processChunk chunk (leftover.bytes h)).2 ∧
    (processChunkMem grow h chunk leftover).newLeftover.wf
      (processChunkMem grow h chunk leftover).heap := by
  have hfl := bytesIndex_le_bytesLastIndex chunk NL
  by_cases h1 : bytesIndex chunk NL = -1
  · have hl : bytesLastIndex chunk NL = -1 := hfl.2.1 h1
    have hs := appendSlice_spec grow h leftover chunk hw
    rw [processChunkMem_no_newline grow h chunk leftover h1]
    simp only [processChunk, h1, hl]
    simp only [ne_eq, not_true_eq_false, if_false, false_and]
    exact ⟨Slice.bytes_empty _, hs.1, hs.2.1⟩
  · have h1' : bytesIndex chunk NL ≠ -1 := h1
    have hs := appendSlice_spec grow h leftover (slice chunk 0 (bytesIndex chunk NL + 1)) hw
    by_cases h3 : bytesIndex chunk NL = bytesLastIndex chunk NL
    · have hcond : ¬ (bytesLastIndex chunk NL ≠ -1 ∧
          bytesIndex chunk NL ≠ bytesLastIndex chunk NL) := fun e => e.2 h3
      rw [processChunkMem_one_newline grow h chunk leftover h1' h3]
      simp only [processChunk, if_neg hcond, if_pos h1']
      refine ⟨hs.1, by simp [Slice.bytes], ⟨Nat.zero_le _, fun hc => ?_⟩⟩
      obtain ⟨ha, hA⟩ := hw.2 hc
      exact ⟨lt_of_lt_of_le ha hs.2.2, by
        rw [appendSlice_length_frame grow h leftover _ _ ha]; exact hA⟩
    · have hl1 : bytesLastIndex chunk NL ≠ -1 := fun e => h1 (hfl.2.2 e)
      have hcond : bytesLastIndex chunk NL ≠ -1 ∧
          bytesIndex chunk NL ≠ bytesLastIndex chunk NL := ⟨hl1, h3⟩
      have hs2 := appendSlice_spec grow _ _
        (slice chunk (bytesIndex chunk NL + 1) (bytesLastIndex chunk NL + 1)) hs.2.1
      have hs3 := appendSlice_spec grow
        (appendSlice grow (appendSlice grow h leftover
          (slice chunk 0 (bytesIndex chunk NL + 1))).1
          (appendSlice grow h leftover (slice chunk 0 (bytesIndex chunk NL + 1))).2
          (slice chunk (bytesIndex chunk NL + 1) (bytesLastIndex chunk NL + 1))).1
        Slice.empty (sliceFrom chunk (bytesLastIndex chunk NL + 1)) (Slice.wf_empty _)
      simp only [processChunkMem, if_pos hcond, if_pos h1', processChunk]
      refine ⟨?_, ?_, hs3.2.1⟩
      · rw [← hs.1, ← hs2.1]
        obtain ⟨hv1, hv2⟩ := hs2.2.1
        by_cases hc : 0 < (appendSlice grow (appendSlice grow h leftover
            (slice chunk 0 (bytesIndex chunk NL + 1))).1
            (appendSlice grow h leftover (slice chunk 0 (bytesIndex chunk NL + 1))).2
            (slice chunk (bytesIndex chunk NL + 1) (bytesLastIndex chunk NL + 1))).2.cap
        · simp only [Slice.bytes]
          rw [appendSlice_empty_frame grow _ _ _ (hv2 hc).1]
        · simp only [Slice.bytes]
          have : (appendSlice grow (appendSlice grow h leftover
            (slice chunk 0 (bytesIndex chunk NL + 1))).1
            (appendSlice grow h leftover (slice chunk 0 (bytesIndex chunk NL + 1))).2
            (slice chunk (bytesIndex chunk NL + 1) (bytesLastIndex chunk NL + 1))).2.len = 0 := by
            omega
          rw [this]
          simp
      · rw [hs3.1, Slice.bytes_empty]
        simp

/-- The agreement of the two models at the heap holding `abc`, the leftover
`abc` of capacity 3 and the chunk `d\nef\ng`. -/
theorem processChunkMem_bytes_witness :
    Slice.wf [[97, 98, 99]] { arr := 0, len := 3, cap := 3 } ∧
    (processChunkMem (fun _ n => n) [[97, 98, 99]] (ascii "d\nef\ng")
        { arr := 0, len := 3, cap := 3 }).validPart.bytes
      (processChunkMem (fun _ n => n) [[97, 98, 99]] (ascii "d\nef\ng")
        { arr := 0, len := 3, cap := 3 }).heap =
      (processChunk (ascii "d\nef\ng")
        (Slice.bytes [[97, 98, 99]] { arr := 0, len := 3, cap := 3 })).1 :=
  ⟨by simp [Slice.wf],
    (processChunkMem_bytes (fun _ n => n) [[97, 98, 99]] (ascii "d\nef\ng")
      { arr := 0, len := 3, cap := 3 } (by simp [Slice.wf])).1⟩

/-! ## The units read after they have been overwritten -/

/-- One iteration of the loop of `lineSupervisor` on the zero-length window
`leftover[:0]` of array 0, for a chunk that ends with its only line break and
fits the capacity: the chunk is written in place at the start of the array and
sent, and the buffer is the same zero-length window again. -/
theorem supStepMem_in_place (grow : Nat → Nat → Nat) (sent : List Slice) (c : Nat)
    (A : List Nat) (arrays : Heap) (chunk : List Nat)
    (hf : bytesIndex chunk NL ≠ -1)
    (hfl : bytesIndex chunk NL = bytesLastIndex chunk NL)
    (hsl : slice chunk 0 (bytesIndex chunk NL + 1) = chunk)
    (hfit : chunk.length ≤ c) (hpos : 0 < chunk.length) :
    supStepMem grow
        { heap := A :: arrays, sent := sent, buffer := { arr := 0, len := 0, cap := c } }
        chunk =
      { heap := writeName A 0 chunk :: arrays,
        sent := sent ++ [{ arr := 0, len := chunk.length, cap := c }],
        buffer := { arr := 0, len := 0, cap := c } } := by
  have hfit' : (0 : Nat) + chunk.length ≤ c := by omega
  simp only [supStepMem, processChunkMem_one_newline grow _ _ _ hf hfl, hsl,
    appendSlice_in_place grow _ { arr := 0, len := 0, cap := c } chunk hfit']
  simp [hpos]

theorem supervisorMem_first (grow : Nat → Nat → Nat) :
    supervisorMem grow [[80, 101, 116, 114, 111, 112, 97, 118, 108, 111, 118, 115, 107, 59]] =
      { heap := [[80, 101, 116, 114, 111, 112, 97, 118, 108, 111, 118, 115, 107, 59] ++
          List.replicate (max 14 (grow 0 14) - 14) 0],
        sent := [],
        buffer := { arr := 0, len := 14, cap := max 14 (grow 0 14) } } := by
  have hf : bytesIndex [80, 101, 116, 114, 111, 112, 97, 118, 108, 111, 118, 115, 107, 59] NL
      = -1 := by decide
  simp [supervisorMem, supStepMem, processChunkMem_no_newline grow _ _ _ hf, appendSlice,
    Slice.empty, Slice.bytes]

theorem supervisorMem_second_fits (grow : Nat → Nat → Nat) (hfit : 18 ≤ max 14 (grow 0 14)) :
    supervisorMem grow [[80, 101, 116, 114, 111, 112, 97, 118, 108, 111, 118, 115, 107, 59],
        [49, 46, 48, 10]] =
      { heap := [[80, 101, 116, 114, 111, 112, 97, 118, 108, 111, 118, 115, 107, 59,
          49, 46, 48, 10] ++ List.replicate (max 14 (grow 0 14) - 18) 0],
        sent := [{ arr := 0, len := 18, cap := max 14 (grow 0 14) }],
        buffer := { arr := 0, len := 0, cap := max 14 (grow 0 14) } } := by
  have h1 := supervisorMem_first grow
  have hstep : supervisorMem grow [[80, 101, 116, 114, 111, 112, 97, 118, 108, 111, 118, 115,
      107, 59], [49, 46, 48, 10]] =
      supStepMem grow (supervisorMem grow [[80, 101, 116, 114, 111, 112, 97, 118, 108, 111,
        118, 115, 107, 59]]) [49, 46, 48, 10] := by
    simp [supervisorMem]
  have hf : bytesIndex [49, 46, 48, 10] NL ≠ -1 := by decide
  have hfl : bytesIndex [49, 46, 48, 10] NL = bytesLastIndex [49, 46, 48, 10] NL := by decide
  have hsl : slice [49, 46, 48, 10] 0 (bytesIndex [49, 46, 48, 10] NL + 1) = [49, 46, 48, 10] := by
    decide
  have hfit' : 14 + [49, 46, 48, 10].length ≤ max 14 (grow 0 14) := by simpa using hfit
  obtain ⟨m, hm⟩ : ∃ m, max 14 (grow 0 14) - 14 = m + 4 := ⟨max 14 (grow 0 14) - 18, by omega⟩
  have hm' : max 14 (grow 0 14) - 18 = m := by omega
  rw [hstep, h1]
  simp only [supStepMem, processChunkMem_one_newline grow _ _ _ hf hfl, hsl,
    appendSlice_in_place grow _ { arr := 0, len := 14, cap := max 14 (grow 0 14) } _ hfit',
    hm, hm']
  simp [writeName, List.replicate_succ]

theorem supervisorMem_second_new (grow : Nat → Nat → Nat) (hfit : ¬ 18 ≤ max 14 (grow 0 14)) :
    supervisorMem grow [[80, 101, 116, 114, 111, 112, 97, 118, 108, 111, 118, 115, 107, 59],
        [49, 46, 48, 10]] =
      { heap := [[80, 101, 116, 114, 111, 112, 97, 118, 108, 111, 118, 115, 107, 59] ++
            List.replicate (max 14 (grow 0 14) - 14) 0,
          [80, 101, 116, 114, 111, 112, 97, 118, 108, 111, 118, 115, 107, 59,
            49, 46, 48, 10] ++
            List.replicate (max 18 (grow (max 14 (grow 0 14)) 18) - 18) 0],
        sent := [{ arr := 1, len := 18, cap := max 18 (grow (max 14 (grow 0 14)) 18) }],
        buffer := { arr := 0, len := 0, cap := max 14 (grow 0 14) } } := by
  have h1 := supervisorMem_first grow
  have hstep : supervisorMem grow [[80, 101, 116, 114, 111, 112, 97, 118, 108, 111, 118, 115,
      107, 59], [49, 46, 48, 10]] =
      supStepMem grow (supervisorMem grow [[80, 101, 116, 114, 111, 112, 97, 118, 108, 111,
        118, 115, 107, 59]]) [49, 46, 48, 10] := by
    simp [supervisorMem]
  have hf : bytesIndex [49, 46, 48, 10] NL ≠ -1 := by decide
  have hfl : bytesIndex [49, 46, 48, 10] NL = bytesLastIndex [49, 46, 48, 10] NL := by decide
  have hsl : slice [49, 46, 48, 10] 0 (bytesIndex [49, 46, 48, 10] NL + 1) = [49, 46, 48, 10] := by
    decide
  have hfit' : ¬ (14 + [49, 46, 48, 10].length ≤ max 14 (grow 0 14)) := by simpa using hfit
  rw [hstep, h1]
  simp only [supStepMem, processChunkMem_one_newline grow _ _ _ hf hfl, hsl, appendSlice,
    if_neg hfit']
  simp [Slice.bytes]


theorem supervisorMem_four (grow : Nat → Nat → Nat) :
    supervisorMem grow [[80, 101, 116, 114, 111, 112, 97, 118, 108, 111, 118, 115, 107, 59],
        [49, 46, 48, 10], [72, 97, 109, 98, 117, 114, 103, 59, 49, 50, 46, 48, 10],
        [79, 115, 108, 111, 59, 49, 46, 53, 10]] =
      supStepMem grow
        (supStepMem grow
          (supervisorMem grow [[80, 101, 116, 114, 111, 112, 97, 118, 108, 111, 118, 115, 107, 59],
            [49, 46, 48, 10]])
          [72, 97, 109, 98, 117, 114, 103, 59, 49, 50, 46, 48, 10])
        [79, 115, 108, 111, 59, 49, 46, 53, 10] := by
  simp [supervisorMem]

/-- The units read late when the first array has room for the first unit: all
three show the start of the same array. -/
theorem unitsReadLate_fits (grow : Nat → Nat → Nat) (hfit : 18 ≤ max 14 (grow 0 14)) :
    unitsReadLate grow [[80, 101, 116, 114, 111, 112, 97, 118, 108, 111, 118, 115, 107, 59],
        [49, 46, 48, 10], [72, 97, 109, 98, 117, 114, 103, 59, 49, 50, 46, 48, 10],
        [79, 115, 108, 111, 59, 49, 46, 53, 10]] =
      [[79, 115, 108, 111, 59, 49, 46, 53, 10, 50, 46, 48, 10, 59, 49, 46, 48, 10],
       [79, 115, 108, 111, 59, 49, 46, 53, 10, 50, 46, 48, 10],
       [79, 115, 108, 111, 59, 49, 46, 53, 10]] := by
  have hc13 : [72, 97, 109, 98, 117, 114, 103, 59, 49, 50, 46, 48, 10].length ≤
      max 14 (grow 0 14) := by simp only [List.length_cons, List.length_nil]; omega
  have hc9 : [79, 115, 108, 111, 59, 49, 46, 53, 10].length ≤ max 14 (grow 0 14) := by
    simp only [List.length_cons, List.length_nil]; omega
  have h4 := supervisorMem_four grow
  rw [supervisorMem_second_fits grow hfit,
    supStepMem_in_place grow _ _ _ _ _ (by decide) (by decide) (by decide) hc13 (by decide),
    supStepMem_in_place grow _ _ _ _ _ (by decide) (by decide) (by decide) hc9 (by decide)]
    at h4
  simp only [unitsReadLate, h4]
  simp [Slice.bytes, writeName]

/-- The units read late when `append` moves the first unit to a new array: the
second and third show the start of the array of the buffer. -/
theorem unitsReadLate_new (grow : Nat → Nat → Nat) (hfit : ¬ 18 ≤ max 14 (grow 0 14)) :
    unitsReadLate grow [[80, 101, 116, 114, 111, 112, 97, 118, 108, 111, 118, 115, 107, 59],
        [49, 46, 48, 10], [72, 97, 109, 98, 117, 114, 103, 59, 49, 50, 46, 48, 10],
        [79, 115, 108, 111, 59, 49, 46, 53, 10]] =
      [[80, 101, 116, 114, 111, 112, 97, 118, 108, 111, 118, 115, 107, 59, 49, 46, 48, 10],
       [79, 115, 108, 111, 59, 49, 46, 53, 10, 50, 46, 48, 10],
       [79, 115, 108, 111, 59, 49, 46, 53, 10]] := by
  have hc13 : [72, 97, 109, 98, 117, 114, 103, 59, 49, 50, 46, 48, 10].length ≤
      max 14 (grow 0 14) := by simp only [List.length_cons, List.length_nil]; omega
  have hc9 : [79, 115, 108, 111, 59, 49, 46, 53, 10].length ≤ max 14 (grow 0 14) := by
    simp only [List.length_cons, List.length_nil]; omega
  have h4 := supervisorMem_four grow
  rw [supervisorMem_second_new grow hfit,
    supStepMem_in_place grow _ _ _ _ _ (by decide) (by decide) (by decide) hc13 (by decide),
    supStepMem_in_place grow _ _ _ _ _ (by decide) (by decide) (by decide) hc9 (by decide)]
    at h4
  simp only [unitsReadLate, h4]
  simp [Slice.bytes, writeName]

/-- C19: whatever capacity the runtime gives to a new backing array, when the
file `Petropavlovsk;1.0\nHamburg;12.0\nOslo;1.5\n` (three line breaks) arrives as
the raw chunks `Petropavlovsk;`, `1.0\n`, `Hamburg;12.0\n`, `Oslo;1.5\n` and the
units, waiting in the buffered channel of line 208, are read after the last
chunk has been handled, the unit sent as `Hamburg;12.0\n` reads
`Oslo;1.5\n2.0\n` and the counts of the final table add up to 6 or to 4, not to
3, whether one worker receives the three units or three workers one each. -/
theorem late_read_count (grow : Nat → Nat → Nat) :
    [ascii "Petropavlovsk;", ascii "1.0\n", ascii "Hamburg;12.0\n",
      ascii "Oslo;1.5\n"].flatten.count NL = 3 ∧
    lineSupervisor [ascii "Petropavlovsk;", ascii "1.0\n", ascii "Hamburg;12.0\n",
      ascii "Oslo;1.5\n"] =
      [ascii "Petropavlovsk;1.0\n", ascii "Hamburg;12.0\n", ascii "Oslo;1.5\n"] ∧
    ((unitsReadLate grow [ascii "Petropavlovsk;", ascii "1.0\n", ascii "Hamburg;12.0\n",
        ascii "Oslo;1.5\n"] =
        [ascii "Oslo;1.5\n2.0\n;1.0\n", ascii "Oslo;1.5\n2.0\n", ascii "Oslo;1.5\n"] ∧
      totalCount (runWorkers [unitsReadLate grow [ascii "Petropavlovsk;", ascii "1.0\n",
        ascii "Hamburg;12.0\n", ascii "Oslo;1.5\n"]]) = 6 ∧
      totalCount (runWorkers ((unitsReadLate grow [ascii "Petropavlovsk;", ascii "1.0\n",
        ascii "Hamburg;12.0\n", ascii "Oslo;1.5\n"]).map (fun u => [u]))) = 6) ∨
     (unitsReadLate grow [ascii "Petropavlovsk;", ascii "1.0\n", ascii "Hamburg;12.0\n",
        ascii "Oslo;1.5\n"] =
        [ascii "Petropavlovsk;1.0\n", ascii "Oslo;1.5\n2.0\n", ascii "Oslo;1.5\n"] ∧
      totalCount (runWorkers [unitsReadLate grow [ascii "Petropavlovsk;", ascii "1.0\n",
        ascii "Hamburg;12.0\n", ascii "Oslo;1.5\n"]]) = 4 ∧
      totalCount (runWorkers ((unitsReadLate grow [ascii "Petropavlovsk;", ascii "1.0\n",
        ascii "Hamburg;12.0\n", ascii "Oslo;1.5\n"]).map (fun u => [u]))) = 4)) := by
  have e1 : ascii "Petropavlovsk;" =
      [80, 101, 116, 114, 111, 112, 97, 118, 108, 111, 118, 115, 107, 59] := by decide
  have e2 : ascii "1.0\n" = [49, 46, 48, 10] := by decide
  have e3 : ascii "Hamburg;12.0\n" =
      [72, 97, 109, 98, 117, 114, 103, 59, 49, 50, 46, 48, 10] := by decide
  have e4 : ascii "Oslo;1.5\n" = [79, 115, 108, 111, 59, 49, 46, 53, 10] := by decide
  refine ⟨by decide, by decide, ?_⟩
  by_cases hfit : 18 ≤ max 14 (grow 0 14)
  · left
    have hu := unitsReadLate_fits grow hfit
    rw [e1, e2, e3, e4, hu]
    exact ⟨by decide, by decide, by decide⟩
  · right
    have hu := unitsReadLate_new grow hfit
    rw [e1, e2, e3, e4, hu]
    exact ⟨by decide, by decide, by decide⟩

end OneBRC
